import Mathlib

/-!
Replay of a TPM PCR extend chain (replaypcr0)

A shallow embedding of `main.go`.  Bytes are natural numbers below 256, a Go
`[]byte` is a `List Nat`, a Go `int` is an `Int`.  A Go `string` is a Lean
`String`; the hexadecimal decoder looks at one character where Go looks at one
byte, which agrees on every ASCII line, and a character above 127 is refused
here just as each of its UTF-8 bytes is refused by Go.

The standard library pieces the program calls (`hash.Hash`, `crypto/sha1`,
`crypto/sha256`, `encoding/hex`, `bufio.Scanner`, `os.Open`) are modelled by
their documented behaviour; the two hash functions themselves are parameters.
-/

namespace ReplayPCR0

/-! ## Data model -/

deriving instance DecidableEq for Except

/-- The Go type `Digest`, a named `[]byte`. -/
abbrev Digest := List Nat

/-- A value of the interface `hash.Hash`: the hash function of the algorithm,
the value of `Size()`, and the bytes written since the last `Reset`. -/
structure Hasher where
  sum : List Nat → List Nat
  size : Int
  pending : List Nat

/-- The method `Write` of `hash.Hash`: the bytes are added to the running hash. -/
def Hasher.Write (h : Hasher) (p : List Nat) : Hasher :=
  { h with pending := h.pending ++ p }

/-- The method `Sum` of `hash.Hash`: the hash of what was written so far is
appended to `b`; the state of the hasher does not change. -/
def Hasher.Sum (h : Hasher) (b : List Nat) : List Nat :=
  b ++ h.sum h.pending

/-- The method `Reset` of `hash.Hash`. -/
def Hasher.Reset (h : Hasher) : Hasher :=
  { h with pending := [] }

/-- The method `Size` of `hash.Hash`. -/
def Hasher.Size (h : Hasher) : Int :=
  h.size

/-- The constant `sha1.Size`. -/
def sha1Size : Int := 20

/-- The constant `sha256.Size`. -/
def sha256Size : Int := 32

/-- The constructor `sha1.New()`, over the SHA-1 function `sha1Sum`. -/
def sha1New (sha1Sum : List Nat → List Nat) : Hasher :=
  { sum := sha1Sum, size := sha1Size, pending := [] }

/-- The constructor `sha256.New()`, over the SHA-256 function `sha256Sum`. -/
def sha256New (sha256Sum : List Nat → List Nat) : Hasher :=
  { sum := sha256Sum, size := sha256Size, pending := [] }

/-- A run-time panic of the Go program. -/
inductive Panic where
  | makesliceLenOutOfRange
  | indexOutOfRange (index : Int) (len : Nat)
  deriving DecidableEq, Repr

/-- Go `make([]byte, n)`: `n` zero bytes, a panic for a negative `n`. -/
def makeBytes (n : Int) : Except Panic (List Nat) :=
  if n < 0 then .error .makesliceLenOutOfRange else .ok (List.replicate n.toNat 0)

/-- Go `v[i] = x` on a slice, with its bounds check. -/
def setIndex (v : List Nat) (i : Int) (x : Nat) : Except Panic (List Nat) :=
  if i < 0 ∨ (v.length : Int) ≤ i then .error (.indexOutOfRange i v.length)
  else .ok (v.set i.toNat x)

/-! ## Formatting with `%X` -/

/-- One upper-case hexadecimal digit. -/
def upperHexDigit (n : Nat) : Char :=
  if n < 10 then Char.ofNat (48 + n) else Char.ofNat (55 + n)

/-- The verb `%X` on a byte slice: two upper-case hexadecimal digits per byte. -/
def upperHex (bs : List Nat) : String :=
  String.mk (bs.flatMap fun b => [upperHexDigit (b / 16 % 16), upperHexDigit (b % 16)])

/-- The line printed by `fmt.Printf("<- %X: %X\n", e, v)`, without its newline. -/
def auditLine (e v : List Nat) : String :=
  "<- " ++ upperHex e ++ ": " ++ upperHex v

/-! ## The chain replayer -/

/-- The variables the closure `extend` of `replay` reads and writes: the hasher,
the captured accumulator `v`, and the lines printed so far. -/
structure ReplayState where
  hasher : Hasher
  v : List Nat
  stdout : List String

/-- The closure `extend` of `replay`. -/
def extend (st : ReplayState) (e : List Nat) : ReplayState :=
  let h1 := st.hasher.Write st.v
  let h2 := h1.Write e
  let v := h2.Sum []
  let h3 := h2.Reset
  { hasher := h3, v := v, stdout := st.stdout ++ [auditLine e v] }

/-- What `replay` leaves behind: the digest it returns, the hasher after the
call, and the audit lines it printed. -/
structure ReplayResult where
  digest : Digest
  hasher : Hasher
  stdout : List String

/-- The function `replay`. -/
def replay (hasher : Hasher) (locality : Nat) (contribs : List Digest) :
    Except Panic ReplayResult :=
  match makeBytes hasher.Size with
  | .error p => .error p
  | .ok v0 =>
    match setIndex v0 (hasher.Size - 1) 3 with
    | .error p => .error p
    | .ok v =>
      let st := contribs.foldl extend { hasher := hasher, v := v, stdout := [] }
      .ok { digest := st.v, hasher := st.hasher, stdout := st.stdout }

/-! ## Hash algorithm selection -/

/-- The function `hashAlgoFromDigestSize`; `none` is the nil interface value. -/
def hashAlgoFromDigestSize (sha1Sum sha256Sum : List Nat → List Nat) (digestSize : Int) :
    Option Hasher :=
  if digestSize = sha1Size then some (sha1New sha1Sum)
  else if digestSize = sha256Size then some (sha256New sha256Sum)
  else none

/-! ## The input validator -/

/-- The error of `hex.DecodeString`: `hex.InvalidByteError` or `hex.ErrLength`. -/
inductive HexError where
  | invalidByte (c : Char)
  | errLength
  deriving DecidableEq, Repr

/-- The value of one hexadecimal digit, `none` for any other character. -/
def fromHexChar (c : Char) : Option Nat :=
  let n := c.toNat
  if 48 ≤ n ∧ n ≤ 57 then some (n - 48)
  else if 97 ≤ n ∧ n ≤ 102 then some (n - 97 + 10)
  else if 65 ≤ n ∧ n ≤ 70 then some (n - 65 + 10)
  else none

/-- The loop of `hex.Decode`: pairs of digits from the left, the first bad
character of a pair reported first, a single left-over character last. -/
def hexDecode : List Char → Except HexError (List Nat)
  | [] => .ok []
  | [p] =>
    match fromHexChar p with
    | none => .error (.invalidByte p)
    | some _ => .error .errLength
  | p :: q :: rest =>
    match fromHexChar p with
    | none => .error (.invalidByte p)
    | some a =>
      match fromHexChar q with
      | none => .error (.invalidByte q)
      | some b =>
        match hexDecode rest with
        | .error e => .error e
        | .ok bs => .ok ((a * 16 + b) :: bs)

/-- The function `hex.DecodeString`. -/
def hexDecodeString (s : String) : Except HexError (List Nat) :=
  hexDecode s.toList

/-- The error values `parseListFile` builds with `fmt.Errorf`. -/
inductive ParseError where
  | unableToOpen (listFilePath : String) (cause : String)
  | unableToUnHex (str : String) (cause : HexError)
  | inconsistentLength (first : Digest) (b : Digest) (firstLen : Nat) (bLen : Nat)
  | unableToScan (listFilePath : String) (cause : String)
  deriving DecidableEq, Repr

/-- What the operating system and `bufio.Scanner` give for a path: the error of
`os.Open` if any, the lines `scanner.Scan` yields, and the value of
`scanner.Err()` once `Scan` has returned false. -/
structure Source where
  openErr : Option String
  lines : List String
  scanErr : Option String

/-- A readable source with the given lines: it opens and scans without error. -/
def Source.ofLines (lines : List String) : Source :=
  { openErr := none, lines := lines, scanErr := none }

/-- The scanning loop of `parseListFile` on the lines still to come, with the
current value of the variable `result`. -/
def scanLoop : List String → List Digest → Except ParseError (List Digest)
  | [], result => .ok result
  | str :: rest, result =>
    match hexDecodeString str with
    | .error err => .error (.unableToUnHex str err)
    | .ok b =>
      if result.length ≠ 0 ∧ b.length ≠ (result.headD []).length then
        .error (.inconsistentLength (result.headD []) b (result.headD []).length b.length)
      else scanLoop rest (result ++ [b])

/-- The function `parseListFile`, on what the path resolves to. -/
def parseListFile (listFilePath : String) (src : Source) : Except ParseError (List Digest) :=
  match src.openErr with
  | some cause => .error (.unableToOpen listFilePath cause)
  | none =>
    match scanLoop src.lines [] with
    | .error e => .error e
    | .ok result =>
      match src.scanErr with
      | some cause => .error (.unableToScan listFilePath cause)
      | none => .ok result

/-! ## The program -/

/-- The ways `main` ends without a result: `errorExit` with its description
(exit status 2), `log.Fatal` on the error of `parseListFile`, or a panic. -/
inductive RunError where
  | errorExit (description : String)
  | fatal (err : ParseError)
  | panicked (p : Panic)
  deriving DecidableEq, Repr

/-- The description `main` builds for a digest length that selects no hasher. -/
def unexpectedDigestLength (n : Int) : String :=
  "unexpected digest length " ++ toString n ++ " (does not match neither SHA1 nor SHA256)"

/-- What a successful run prints: the digest and every line of standard output,
the audit lines first and the line of the result last. -/
structure RunOutput where
  resultDigest : Digest
  stdout : List String

/-- The function `main`: `fs` resolves a path to its source, `localityFlag` is
the parsed value of `-locality`, `args` are the positional arguments. -/
def main (sha1Sum sha256Sum : List Nat → List Nat) (fs : String → Source)
    (localityFlag : Nat) (args : List String) : Except RunError RunOutput :=
  match args with
  | [listFilePath] =>
    match parseListFile listFilePath (fs listFilePath) with
    | .error err => .error (.fatal err)
    | .ok contribList =>
      match contribList with
      | [] => .error (.errorExit "the provided file was empty")
      | first :: _ =>
        match hashAlgoFromDigestSize sha1Sum sha256Sum (first.length : Int) with
        | none => .error (.errorExit (unexpectedDigestLength (first.length : Int)))
        | some hashAlgo =>
          match replay hashAlgo (localityFlag % 256) contribList with
          | .error p => .error (.panicked p)
          | .ok r =>
            .ok { resultDigest := r.digest,
                  stdout := r.stdout ++ ["result digest is: " ++ upperHex r.digest] }
  | _ => .error (.errorExit "exactly one argument is expected")

/-! ## Instances used for evaluation -/

/-- A stand-in hash function of output size `n`: the sum of the input bytes
modulo 256, then the input length modulo 256, padded with zero bytes. -/
def toySum (n : Nat) (bs : List Nat) : List Nat :=
  ((bs.sum % 256) :: (bs.length % 256) :: List.replicate n 0).take n

/-- A hasher of output size `n` over `toySum`, freshly created. -/
def toyHasher (n : Nat) : Hasher :=
  { sum := toySum n, size := (n : Int), pending := [] }

/-! ## The chain of the specification -/

/-- The accumulator a register of `n` bytes starts from: `n - 1` zero bytes
followed by the byte 3. -/
def initialAccumulator (n : Nat) : List Nat :=
  List.replicate (n - 1) 0 ++ [3]

/-- The extend chain over a hash function `H`: `v_i = H (v_(i-1) || c_i)`,
folded from the left over the contributions. -/
def extendChain (H : List Nat → List Nat) (v0 : List Nat) (contribs : List Digest) : List Nat :=
  contribs.foldl (fun v c => H (v ++ c)) v0

/-- The audit trail of the chain: for each contribution `c` in turn the line
that records `c` and the value `H (v || c)`, which is the accumulator for the
next contribution. -/
def auditTrail (H : List Nat → List Nat) : List Nat → List Digest → List String
  | _, [] => []
  | v, c :: cs => auditLine c (H (v ++ c)) :: auditTrail H (H (v ++ c)) cs

/-- The upper-case hexadecimal digits. -/
def upperHexDigits : List Char :=
  "0123456789ABCDEF".toList

/-- The bytes the hasher holds when the closure `extend` calls `Sum`: what was
pending, then the accumulator, then the contribution. -/
def sumInput (st : ReplayState) (e : List Nat) : List Nat :=
  ((st.hasher.Write st.v).Write e).pending

/-- The inputs on which the hash function is called while the loop of `replay`
runs over the contributions from the state `st`, in the order of the calls. -/
def sumInputs : ReplayState → List Digest → List (List Nat)
  | _, [] => []
  | st, e :: es => sumInput st e :: sumInputs (extend st e) es

/-- The hash function `H` has no collision between an input of the list `xs`
and an input of the list `ys`. -/
def NoCollisionBetween (H : List Nat → List Nat) (xs ys : List (List Nat)) : Prop :=
  ∀ x ∈ xs, ∀ y ∈ ys, H x = H y → x = y

/-- The contribution list with the digests at the positions `i` and `j`
exchanged. -/
def swapAt (contribs : List Digest) (i j : Nat) : List Digest :=
  (contribs.set i (contribs.getD j [])).set j (contribs.getD i [])

/-! ## The hexadecimal lines of the specification -/

/-- The characters the specification allows in a line: `0-9`, `a-f`, `A-F`. -/
def hexDigits : List Char :=
  "0123456789abcdefABCDEF".toList

/-- A line is valid hexadecimal: an even number of characters, each of them a
hexadecimal digit. -/
def validHex (s : String) : Bool :=
  s.length % 2 == 0 && s.toList.all fun c => hexDigits.contains c

/-- The line `l` decodes to the digest `b`. -/
def DecodesTo (l : String) (b : Digest) : Prop :=
  hexDecodeString l = .ok b

/-- All digests of a list have the byte length of its first digest. -/
def SameLength (ds : List Digest) : Prop :=
  ∀ d ∈ ds, d.length = (ds.headD []).length

/-- Some line of the source is not valid hexadecimal. -/
def HasInvalidLine (lines : List String) : Prop :=
  ∃ l ∈ lines, validHex l = false

/-- Some line of the source decodes to a byte length different from that of the
decoding of the first line. -/
def HasLengthMismatch (lines : List String) : Prop :=
  ∃ l0 b0 l b, lines.head? = some l0 ∧ DecodesTo l0 b0 ∧ l ∈ lines ∧ DecodesTo l b
    ∧ b.length ≠ b0.length

/-! ## Lemmas on the replayer -/

theorem makeBytes_ofNat (n : Nat) : makeBytes (n : Int) = .ok (List.replicate n 0) := by
  simp [makeBytes]

theorem set_last_replicate (m x : Nat) :
    (List.replicate (m + 1) 0).set m x = List.replicate m 0 ++ [x] := by
  induction m with
  | zero => rfl
  | succ k ih =>
    rw [List.replicate_succ, List.set_cons_succ, ih]
    rfl

theorem setIndex_last (m x : Nat) :
    setIndex (List.replicate (m + 1) 0) (((m + 1 : Nat) : Int) - 1) x
      = .ok (List.replicate m 0 ++ [x]) := by
  have h1 : (((m + 1 : Nat) : Int) - 1) = (m : Int) := by push_cast; ring
  rw [h1]
  have h2 : ¬ ((m : Int) < 0 ∨ (((List.replicate (m + 1) 0).length : Nat) : Int) ≤ (m : Int)) := by
    simp only [List.length_replicate]
    push_cast
    omega
  simp only [setIndex, if_neg h2, Int.toNat_ofNat, set_last_replicate]

theorem extend_hasher (st : ReplayState) (e : List Nat) :
    (extend st e).hasher = { st.hasher with pending := [] } := rfl

theorem extend_v (st : ReplayState) (e : List Nat) :
    (extend st e).v = st.hasher.sum (st.hasher.pending ++ st.v ++ e) := by
  simp [extend, Hasher.Write, Hasher.Sum]

theorem foldl_extend_fresh (contribs : List Digest) (st : ReplayState)
    (hfresh : st.hasher.pending = []) :
    (contribs.foldl extend st).v = extendChain st.hasher.sum st.v contribs
      ∧ (contribs.foldl extend st).hasher = st.hasher := by
  induction contribs generalizing st with
  | nil => exact ⟨rfl, rfl⟩
  | cons c cs ih =>
    have hres : (extend st c).hasher = st.hasher := by
      rw [extend_hasher, ← hfresh]
    have hp : (extend st c).hasher.pending = [] := by rw [hres, hfresh]
    obtain ⟨hv, hh⟩ := ih (extend st c) hp
    refine ⟨?_, ?_⟩
    · rw [List.foldl_cons, hv, hres, extend_v, hfresh]
      simp [extendChain]
    · rw [List.foldl_cons, hh, hres]

theorem replay_of_size (hasher : Hasher) (locality : Nat) (contribs : List Digest) (m : Nat)
    (hsize : hasher.size = ((m + 1 : Nat) : Int)) :
    replay hasher locality contribs =
      .ok { digest := (contribs.foldl extend
                        { hasher := hasher, v := initialAccumulator (m + 1), stdout := [] }).v,
            hasher := (contribs.foldl extend
                        { hasher := hasher, v := initialAccumulator (m + 1), stdout := [] }).hasher,
            stdout := (contribs.foldl extend
                        { hasher := hasher, v := initialAccumulator (m + 1), stdout := [] }).stdout } := by
  simp only [replay, Hasher.Size, hsize, makeBytes_ofNat, setIndex_last, initialAccumulator,
    Nat.add_sub_cancel]


theorem extend_v_sumInput (st : ReplayState) (e : List Nat) :
    (extend st e).v = st.hasher.sum (sumInput st e) := by
  simp [extend, sumInput, Hasher.Write, Hasher.Sum]

theorem sumInput_eq (st : ReplayState) (e : List Nat) :
    sumInput st e = st.hasher.pending ++ (st.v ++ e) := by
  simp [sumInput, Hasher.Write]

theorem foldl_extend_inj (n : Nat) (cs cs' : List Digest) (st st' : ReplayState)
    (hh : st.hasher = st'.hasher) (hv : st.v.length = st'.v.length)
    (hout : ∀ x, (st.hasher.sum x).length = n) (hcs : cs.length = cs'.length)
    (heq : (cs.foldl extend st).v = (cs'.foldl extend st').v) :
    (st.v = st'.v ∧ cs = cs')
      ∨ ∃ x ∈ sumInputs st cs, ∃ y ∈ sumInputs st' cs',
          x ≠ y ∧ st.hasher.sum x = st.hasher.sum y := by
  induction cs generalizing cs' st st' with
  | nil =>
    cases cs' with
    | nil => exact Or.inl ⟨heq, rfl⟩
    | cons c' cs'' => cases hcs
  | cons c cs ih =>
    cases cs' with
    | nil => cases hcs
    | cons c' cs'' =>
      have hlen : cs.length = cs''.length := by simpa using hcs
      have hh2 : (extend st c).hasher = (extend st' c').hasher := by
        rw [extend_hasher, extend_hasher, hh]
      have hv2 : (extend st c).v.length = (extend st' c').v.length := by
        rw [extend_v, extend_v, hout, ← hh, hout]
      rcases ih cs'' (extend st c) (extend st' c') hh2 hv2 hout hlen heq with
        ⟨hveq, hcseq⟩ | ⟨x, hx, y, hy, hxy, hcol⟩
      · rw [extend_v_sumInput, extend_v_sumInput, ← hh] at hveq
        by_cases hin : sumInput st c = sumInput st' c'
        · rw [sumInput_eq, sumInput_eq, ← hh] at hin
          obtain ⟨h1, h2⟩ := List.append_inj (List.append_cancel_left hin) hv
          exact Or.inl ⟨h1, by rw [h2, hcseq]⟩
        · exact Or.inr ⟨_, List.mem_cons_self _ _, _, List.mem_cons_self _ _, hin, hveq⟩
      · exact Or.inr ⟨x, List.mem_cons_of_mem _ hx, y, List.mem_cons_of_mem _ hy, hxy, hcol⟩

theorem swapAt_length (cs : List Digest) (i j : Nat) : (swapAt cs i j).length = cs.length := by
  simp [swapAt]

theorem swapAt_ne (cs : List Digest) (i j : Nat) (hi : i < cs.length) (hj : j < cs.length)
    (hne : cs.getD i [] ≠ cs.getD j []) : cs ≠ swapAt cs i j := by
  intro h
  have hij : i ≠ j := by
    rintro rfl
    exact hne rfl
  have h1 : (swapAt cs i j)[i]? = some (cs.getD j []) := by
    unfold swapAt
    rw [List.getElem?_set_ne (Ne.symm hij), List.getElem?_set_self hi]
  have h2 : cs[i]? = some (cs.getD i []) := by
    simp [List.getD_eq_getElem?_getD, List.getElem?_eq_getElem hi]
  rw [← h, h2] at h1
  exact hne (Option.some.inj h1)

theorem auditTrail_length (H : List Nat → List Nat) (v : List Nat) (cs : List Digest) :
    (auditTrail H v cs).length = cs.length := by
  induction cs generalizing v with
  | nil => rfl
  | cons c cs ih => simp [auditTrail, ih]

theorem auditTrail_getElem? (H : List Nat → List Nat) (v : List Nat) (cs : List Digest)
    (i : Nat) (c : Digest) (hc : cs[i]? = some c) :
    (auditTrail H v cs)[i]? = some (auditLine c (extendChain H v (cs.take (i + 1)))) := by
  induction cs generalizing v i with
  | nil => simp at hc
  | cons c0 cs ih =>
    cases i with
    | zero =>
      simp only [List.getElem?_cons_zero, Option.some.injEq] at hc
      subst hc
      simp [auditTrail, extendChain]
    | succ k =>
      simp only [List.getElem?_cons_succ] at hc
      simp only [auditTrail, List.getElem?_cons_succ, ih (H (v ++ c0)) k hc]
      rfl

theorem extendChain_take_succ (H : List Nat → List Nat) (v : List Nat) (cs : List Digest)
    (i : Nat) (c : Digest) (hc : cs[i]? = some c) :
    extendChain H v (cs.take (i + 1)) = H (extendChain H v (cs.take i) ++ c) := by
  rw [List.take_succ, hc]
  simp [extendChain, List.foldl_append]

theorem foldl_extend_stdout (contribs : List Digest) (st : ReplayState)
    (hfresh : st.hasher.pending = []) :
    (contribs.foldl extend st).stdout = st.stdout ++ auditTrail st.hasher.sum st.v contribs := by
  induction contribs generalizing st with
  | nil => simp [auditTrail]
  | cons c cs ih =>
    have hres : (extend st c).hasher = st.hasher := by
      rw [extend_hasher, ← hfresh]
    have hp : (extend st c).hasher.pending = [] := by rw [hres, hfresh]
    have hv : (extend st c).v = st.hasher.sum (st.v ++ c) := by
      rw [extend_v, hfresh, List.nil_append]
    have hout : (extend st c).stdout = st.stdout ++ [auditLine c (st.hasher.sum (st.v ++ c))] := by
      simp [extend, Hasher.Write, Hasher.Sum, hfresh]
    rw [List.foldl_cons, ih (extend st c) hp, hres, hv, hout]
    simp [auditTrail]

theorem foldl_extend_v_length (n : Nat) (contribs : List Digest) (st : ReplayState)
    (hv : st.v.length = n) (hout : ∀ x, (st.hasher.sum x).length = n) :
    (contribs.foldl extend st).v.length = n := by
  induction contribs generalizing st with
  | nil => exact hv
  | cons c cs ih =>
    rw [List.foldl_cons]
    exact ih (extend st c) (by rw [extend_v, hout]) hout

theorem initialAccumulator_length (n : Nat) (hn : 1 ≤ n) : (initialAccumulator n).length = n := by
  simp only [initialAccumulator, List.length_append, List.length_replicate, List.length_cons,
    List.length_nil]
  omega

theorem replay_size_zero (hasher : Hasher) (locality : Nat) (contribs : List Digest)
    (hsize : hasher.size = 0) :
    replay hasher locality contribs = .error (.indexOutOfRange (-1) 0) := by
  simp [replay, Hasher.Size, hsize, makeBytes, setIndex]

theorem replay_size_neg (hasher : Hasher) (locality : Nat) (contribs : List Digest)
    (hsize : hasher.size < 0) :
    replay hasher locality contribs = .error .makesliceLenOutOfRange := by
  simp [replay, Hasher.Size, makeBytes, hsize]

/-! ## Lemmas on the input validator -/

theorem fromHexChar_isSome_iff (c : Char) : (fromHexChar c).isSome ↔ c ∈ hexDigits := by
  constructor
  · intro h
    obtain ⟨n, hn⟩ : ∃ n, c.toNat = n := ⟨_, rfl⟩
    have hc : c = Char.ofNat n := by rw [← hn, Char.ofNat_toNat]
    simp only [fromHexChar, hn] at h
    by_cases h1 : 48 ≤ n ∧ n ≤ 57
    · obtain ⟨ha, hb⟩ := h1
      subst hc
      interval_cases n <;> decide
    · by_cases h2 : 97 ≤ n ∧ n ≤ 102
      · obtain ⟨ha, hb⟩ := h2
        subst hc
        interval_cases n <;> decide
      · by_cases h3 : 65 ≤ n ∧ n ≤ 70
        · obtain ⟨ha, hb⟩ := h3
          subst hc
          interval_cases n <;> decide
        · simp [h1, h2, h3] at h
  · intro h
    simp only [hexDigits, String.toList, List.mem_cons, List.mem_singleton, List.not_mem_nil,
      or_false] at h
    rcases h with h | h | h | h | h | h | h | h | h | h | h | h | h | h | h | h | h | h | h | h
      | h | h <;> subst h <;> decide

theorem hexDecode_ok_iff (cs : List Char) :
    (∃ bs, hexDecode cs = .ok bs) ↔ cs.length % 2 = 0 ∧ ∀ c ∈ cs, c ∈ hexDigits := by
  induction cs using hexDecode.induct with
  | case1 => simp [hexDecode]
  | case2 p h => simp [hexDecode, h]
  | case3 p x h => simp [hexDecode, h]
  | case4 p q rest hp =>
    have : p ∉ hexDigits := by
      rw [← fromHexChar_isSome_iff, hp]; simp
    simp [hexDecode, hp, this]
  | case5 p q rest a ha hq =>
    have : q ∉ hexDigits := by
      rw [← fromHexChar_isSome_iff, hq]; simp
    simp [hexDecode, ha, hq, this]
  | case6 p q rest a ha b hb e he ih =>
    have hp : p ∈ hexDigits := by
      rw [← fromHexChar_isSome_iff, ha]; rfl
    have hq : q ∈ hexDigits := by
      rw [← fromHexChar_isSome_iff, hb]; rfl
    have hno : ¬ ∃ bs, hexDecode rest = .ok bs := by simp [he]
    rw [ih] at hno
    simp only [hexDecode, ha, hb, he, List.length_cons, List.mem_cons, forall_eq_or_imp, hp, hq,
      true_and, false_iff, exists_false, reduceCtorEq]
    intro hh
    apply hno
    refine ⟨by omega, hh.2⟩
  | case7 p q rest a ha b hb bs hbs ih =>
    have hp : p ∈ hexDigits := by
      rw [← fromHexChar_isSome_iff, ha]; rfl
    have hq : q ∈ hexDigits := by
      rw [← fromHexChar_isSome_iff, hb]; rfl
    have hyes : ∃ bs, hexDecode rest = .ok bs := ⟨bs, hbs⟩
    rw [ih] at hyes
    simp only [hexDecode, ha, hb, hbs, List.length_cons, List.mem_cons, forall_eq_or_imp, hp, hq,
      true_and]
    refine ⟨fun _ => ⟨by omega, hyes.2⟩, fun _ => ⟨_, rfl⟩⟩

theorem hexDecodeString_ok_iff (s : String) :
    (∃ b, hexDecodeString s = .ok b) ↔ validHex s = true := by
  rw [hexDecodeString, hexDecode_ok_iff]
  have hmem : ∀ c : Char, hexDigits.contains c = true ↔ c ∈ hexDigits := fun c =>
    List.elem_iff
  simp only [validHex, String.length, String.toList, Bool.and_eq_true, beq_iff_eq,
    List.all_eq_true, hmem]

theorem hexDecode_length (cs : List Char) (bs : List Nat) (h : hexDecode cs = .ok bs) :
    bs.length = cs.length / 2 := by
  induction cs using hexDecode.induct generalizing bs with
  | case1 => simp [hexDecode] at h; subst h; rfl
  | case2 p hp => simp [hexDecode, hp] at h
  | case3 p x hp => simp [hexDecode, hp] at h
  | case4 p q rest hp => simp [hexDecode, hp] at h
  | case5 p q rest a ha hq => simp [hexDecode, ha, hq] at h
  | case6 p q rest a ha b hb e he ih => simp [hexDecode, ha, hb, he] at h
  | case7 p q rest a ha b hb bs1 hbs ih =>
    simp [hexDecode, ha, hb, hbs] at h
    subst h
    simp only [List.length_cons, ih bs1 hbs]
    omega

theorem except_error_iff_not_ok {ε α : Type} (r : Except ε α) :
    (∃ e, r = .error e) ↔ ¬ ∃ a, r = .ok a := by
  cases r <;> simp

theorem sameLength_snoc (result : List Digest) (b : Digest) (hres : SameLength result)
    (hb : result = [] ∨ b.length = (result.headD []).length) :
    SameLength (result ++ [b]) := by
  intro d hd
  cases result with
  | nil =>
    simp only [List.nil_append, List.mem_singleton] at hd
    subst hd
    rfl
  | cons r rs =>
    rcases List.mem_append.1 hd with h | h
    · exact hres d h
    · simp only [List.mem_singleton] at h
      subst h
      rcases hb with hb | hb
      · cases hb
      · exact hb

theorem scanLoop_ok_iff (lines : List String) (result ds : List Digest)
    (hres : SameLength result) :
    scanLoop lines result = .ok ds ↔
      ∃ bs, List.Forall₂ DecodesTo lines bs ∧ ds = result ++ bs ∧ SameLength (result ++ bs) := by
  induction lines generalizing result with
  | nil =>
    simp only [scanLoop, Except.ok.injEq, List.forall₂_nil_left_iff]
    constructor
    · rintro rfl
      exact ⟨[], rfl, by simp, by simpa using hres⟩
    · rintro ⟨bs, rfl, h, _⟩
      simp [h]
  | cons str rest ih =>
    simp only [scanLoop, List.forall₂_cons_left_iff]
    cases hdec : hexDecodeString str with
    | error err =>
      simp only [reduceCtorEq, false_iff, not_exists, not_and]
      rintro bs ⟨b, u, hb, _, _⟩
      rw [DecodesTo, hdec] at hb
      cases hb
    | ok b =>
      dsimp only
      by_cases hcond : result.length ≠ 0 ∧ b.length ≠ (result.headD []).length
      · rw [if_pos hcond]
        simp only [reduceCtorEq, false_iff, not_exists, not_and]
        rintro bs ⟨b1, u, hb, _, rfl⟩ _ hsame
        rw [DecodesTo, hdec] at hb
        cases hb
        obtain ⟨hne, hlen⟩ := hcond
        cases result with
        | nil => exact hne rfl
        | cons r rs => exact hlen (hsame b (by simp))
      · rw [if_neg hcond]
        have hb : result = [] ∨ b.length = (result.headD []).length := by
          by_cases hr : result = []
          · exact Or.inl hr
          · right
            by_contra hlen
            exact hcond ⟨by simpa using hr, hlen⟩
        rw [ih (result ++ [b]) (sameLength_snoc result b hres hb)]
        constructor
        · rintro ⟨bs, hbs, rfl, hsame⟩
          exact ⟨b :: bs, ⟨b, bs, hdec, hbs, rfl⟩, by simp, by simpa using hsame⟩
        · rintro ⟨bs, ⟨b1, u, hb1, hu, rfl⟩, rfl, hsame⟩
          rw [DecodesTo, hdec] at hb1
          cases hb1
          exact ⟨u, hu, by simp, by simpa using hsame⟩

theorem parseListFile_ok_iff (listFilePath : String) (src : Source) (ds : List Digest) :
    parseListFile listFilePath src = .ok ds ↔
      src.openErr = none ∧ src.scanErr = none
        ∧ List.Forall₂ DecodesTo src.lines ds ∧ SameLength ds := by
  have hloop := scanLoop_ok_iff src.lines [] ds (by intro d hd; cases hd)
  simp only [List.nil_append] at hloop
  unfold parseListFile
  cases ho : src.openErr with
  | some cause => simp
  | none =>
    cases hl : scanLoop src.lines [] with
    | error e =>
      rw [hl] at hloop
      simp only [reduceCtorEq, false_iff, true_and]
      rintro ⟨_, h1, h2⟩
      exact absurd (hloop.2 ⟨ds, h1, rfl, h2⟩) (by simp)
    | ok result =>
      rw [hl] at hloop
      cases hs : src.scanErr with
      | some cause => simp
      | none =>
        simp only [true_and]
        constructor
        · intro h
          obtain ⟨bs, h1, h2, h3⟩ := hloop.1 h
          subst h2
          exact ⟨h1, h3⟩
        · rintro ⟨h1, h2⟩
          exact hloop.2 ⟨ds, h1, rfl, h2⟩

theorem forall₂_mem_left {α β : Type} {R : α → β → Prop} {xs : List α} {ys : List β}
    (h : List.Forall₂ R xs ys) {x : α} (hx : x ∈ xs) : ∃ y ∈ ys, R x y := by
  induction h with
  | nil => cases hx
  | cons hab _ ih =>
    rcases List.mem_cons.1 hx with rfl | hx
    · exact ⟨_, List.mem_cons_self _ _, hab⟩
    · obtain ⟨y, hy, hr⟩ := ih hx
      exact ⟨y, List.mem_cons_of_mem _ hy, hr⟩

theorem forall₂_mem_right {α β : Type} {R : α → β → Prop} {xs : List α} {ys : List β}
    (h : List.Forall₂ R xs ys) {y : β} (hy : y ∈ ys) : ∃ x ∈ xs, R x y := by
  induction h with
  | nil => cases hy
  | cons hab _ ih =>
    rcases List.mem_cons.1 hy with rfl | hy
    · exact ⟨_, List.mem_cons_self _ _, hab⟩
    · obtain ⟨x, hx, hr⟩ := ih hy
      exact ⟨x, List.mem_cons_of_mem _ hx, hr⟩

theorem forall₂_of_forall_exists {α β : Type} {R : α → β → Prop} (xs : List α)
    (h : ∀ x ∈ xs, ∃ y, R x y) : ∃ ys, List.Forall₂ R xs ys := by
  induction xs with
  | nil => exact ⟨[], List.Forall₂.nil⟩
  | cons x xs ih =>
    obtain ⟨y, hy⟩ := h x (List.mem_cons_self _ _)
    obtain ⟨ys, hys⟩ := ih fun z hz => h z (List.mem_cons_of_mem _ hz)
    exact ⟨y :: ys, List.Forall₂.cons hy hys⟩

theorem decodesTo_unique {l : String} {b1 b2 : Digest} (h1 : DecodesTo l b1)
    (h2 : DecodesTo l b2) : b1 = b2 := by
  rw [DecodesTo] at h1 h2
  rw [h1] at h2
  exact Except.ok.inj h2

theorem forall₂_getElem? {α β : Type} {R : α → β → Prop} {xs : List α} {ys : List β}
    (h : List.Forall₂ R xs ys) (i : Nat) (x : α) (hx : xs[i]? = some x) :
    ∃ y, ys[i]? = some y ∧ R x y := by
  induction h generalizing i with
  | nil => simp at hx
  | cons hab _ ih =>
    cases i with
    | zero =>
      simp only [List.getElem?_cons_zero, Option.some.injEq] at hx
      subst hx
      exact ⟨_, by simp, hab⟩
    | succ k =>
      simp only [List.getElem?_cons_succ] at hx ⊢
      exact ih k hx

theorem map_hexDecodeString_of_forall₂ {lines : List String} {ds : List Digest}
    (h : List.Forall₂ DecodesTo lines ds) :
    lines.map hexDecodeString = ds.map Except.ok := by
  induction h with
  | nil => rfl
  | cons hab _ ih =>
    rw [DecodesTo] at hab
    simp only [List.map_cons, hab, ih]

theorem parse_ok_iff_no_offence (listFilePath : String) (lines : List String) :
    (∃ ds, parseListFile listFilePath (Source.ofLines lines) = .ok ds) ↔
      ¬ HasInvalidLine lines ∧ ¬ HasLengthMismatch lines := by
  constructor
  · rintro ⟨ds, hok⟩
    obtain ⟨_, _, hall, hsame⟩ :=
      (parseListFile_ok_iff listFilePath (Source.ofLines lines) ds).1 hok
    change List.Forall₂ DecodesTo lines ds at hall
    refine ⟨?_, ?_⟩
    · rintro ⟨l, hl, hbad⟩
      obtain ⟨d, _, hd⟩ := forall₂_mem_left hall hl
      have hv := (hexDecodeString_ok_iff l).1 ⟨d, hd⟩
      rw [hv] at hbad
      cases hbad
    · rintro ⟨l0, b0, l, b, hhead, hb0, hl, hb, hne⟩
      cases lines with
      | nil => cases hhead
      | cons x rest =>
        simp only [List.head?_cons, Option.some.injEq] at hhead
        subst hhead
        obtain ⟨d0, ds1, hd0, _, rfl⟩ := List.forall₂_cons_left_iff.1 hall
        obtain ⟨d, hdmem, hd⟩ := forall₂_mem_left hall hl
        have e0 : d0 = b0 := decodesTo_unique hd0 hb0
        have e1 : d = b := decodesTo_unique hd hb
        have := hsame d hdmem
        rw [e1] at this
        simp only [List.headD_cons, e0] at this
        exact hne this
  · rintro ⟨hinv, hmis⟩
    have hdec : ∀ l ∈ lines, ∃ d, DecodesTo l d := by
      intro l hl
      apply (hexDecodeString_ok_iff l).2
      by_contra hv
      exact hinv ⟨l, hl, by simpa using hv⟩
    obtain ⟨ds, hall⟩ := forall₂_of_forall_exists lines hdec
    refine ⟨ds, (parseListFile_ok_iff listFilePath (Source.ofLines lines) ds).2
      ⟨rfl, rfl, hall, ?_⟩⟩
    intro d hdmem
    obtain ⟨l, hl, hd⟩ := forall₂_mem_right hall hdmem
    cases lines with
    | nil => cases hl
    | cons x rest =>
      obtain ⟨d0, ds1, hd0, _, rfl⟩ := List.forall₂_cons_left_iff.1 hall
      simp only [List.headD_cons]
      by_contra hne
      exact hmis ⟨x, d0, l, d, rfl, hd0, hl, hd, hne⟩

theorem forall₂_replicate_empty (m : Nat) :
    List.Forall₂ DecodesTo (List.replicate m "") (List.replicate m []) := by
  induction m with
  | zero => exact List.Forall₂.nil
  | succ k ih => exact List.Forall₂.cons rfl ih

theorem sameLength_replicate_empty (m : Nat) :
    SameLength (List.replicate m ([] : Digest)) := by
  intro d hd
  rw [List.eq_of_mem_replicate hd]
  cases m <;> rfl

theorem unexpectedDigestLength_ne (n : Int) :
    unexpectedDigestLength n ≠ "the provided file was empty" := by
  intro h
  have h2 := congrArg (fun s : String => s.data.head?) h
  simp [unexpectedDigestLength, String.data_append] at h2

theorem upperHexDigit_mem (n : Nat) (hn : n < 16) : upperHexDigit n ∈ upperHexDigits := by
  interval_cases n <;> decide

theorem fromHexChar_upperHexDigit (n : Nat) (hn : n < 16) :
    fromHexChar (upperHexDigit n) = some n := by
  interval_cases n <;> rfl

theorem upperHex_toList (bs : List Nat) :
    (upperHex bs).toList
      = bs.flatMap fun b => [upperHexDigit (b / 16 % 16), upperHexDigit (b % 16)] :=
  rfl

theorem upperHex_length (bs : List Nat) : (upperHex bs).length = 2 * bs.length := by
  rw [String.length, ← String.toList, upperHex_toList]
  induction bs with
  | nil => rfl
  | cons b bs ih =>
    rw [List.flatMap_cons, List.length_append, ih]
    simp only [List.length_cons, List.length_nil]
    omega

theorem upperHex_digits (bs : List Nat) : ∀ c ∈ (upperHex bs).toList, c ∈ upperHexDigits := by
  intro c hc
  rw [upperHex_toList, List.mem_flatMap] at hc
  obtain ⟨b, _, hb⟩ := hc
  simp only [List.mem_cons, List.mem_singleton, List.not_mem_nil, or_false] at hb
  rcases hb with rfl | rfl
  · exact upperHexDigit_mem _ (Nat.mod_lt _ (by decide))
  · exact upperHexDigit_mem _ (Nat.mod_lt _ (by decide))

theorem hexDecodeString_upperHex (bs : List Nat) (hb : ∀ b ∈ bs, b < 256) :
    hexDecodeString (upperHex bs) = .ok bs := by
  rw [hexDecodeString, upperHex_toList]
  induction bs with
  | nil => rfl
  | cons b bs ih =>
    have hlt : b < 256 := hb b (List.mem_cons_self _ _)
    have hval : b / 16 % 16 * 16 + b % 16 = b := by omega
    rw [List.flatMap_cons]
    simp only [List.cons_append, List.nil_append, hexDecode,
      fromHexChar_upperHexDigit _ (Nat.mod_lt _ (by decide : 0 < 16)),
      List.append_eq, ih fun x hx => hb x (List.mem_cons_of_mem _ hx), hval]

theorem fromHexChar_toUpper_toLower (c : Char) :
    fromHexChar c.toUpper = fromHexChar c.toLower := by
  obtain ⟨n, hn⟩ : ∃ n, c.toNat = n := ⟨_, rfl⟩
  have hc : c = Char.ofNat n := by rw [← hn, Char.ofNat_toNat]
  by_cases hlow : 97 ≤ n ∧ n ≤ 122
  · obtain ⟨ha, hb⟩ := hlow
    subst hc
    interval_cases n <;> rfl
  · by_cases hup : 65 ≤ n ∧ n ≤ 90
    · obtain ⟨ha, hb⟩ := hup
      subst hc
      interval_cases n <;> rfl
    · have h1 : c.toUpper = c := by
        simp only [Char.toUpper, hn, ge_iff_le, hlow, if_false]
      have h2 : c.toLower = c := by
        simp only [Char.toLower, hn, ge_iff_le, hup, if_false]
      rw [h1, h2]

theorem list_pair_induction {α : Type} (P : List α → Prop) (hnil : P [])
    (hone : ∀ a, P [a]) (hpair : ∀ a b l, P l → P (a :: b :: l)) : ∀ l, P l := by
  have h : ∀ l, P l ∧ ∀ a, P (a :: l) := by
    intro l
    induction l with
    | nil => exact ⟨hnil, hone⟩
    | cons b l ih => exact ⟨ih.2 b, fun a => hpair a b l ih.1⟩
  exact fun l => (h l).1

theorem hexDecode_map_congr (f g : Char → Char)
    (hfg : ∀ c, fromHexChar (f c) = fromHexChar (g c)) (cs : List Char) (bs : List Nat) :
    hexDecode (cs.map f) = .ok bs ↔ hexDecode (cs.map g) = .ok bs := by
  induction cs using list_pair_induction generalizing bs with
  | hnil => rfl
  | hone p =>
    simp only [List.map_cons, List.map_nil, hexDecode, hfg p]
    cases fromHexChar (g p) <;> simp
  | hpair p q rest ih =>
    simp only [List.map_cons, hexDecode, hfg p, hfg q]
    cases fromHexChar (g p) with
    | none => simp
    | some a =>
      cases fromHexChar (g q) with
      | none => simp
      | some b =>
        dsimp only
        cases h1 : hexDecode (rest.map f) with
        | error e1 =>
          cases h2 : hexDecode (rest.map g) with
          | error e2 => simp
          | ok b2 =>
            have := (ih b2).2 h2
            rw [h1] at this
            cases this
        | ok b1 =>
          rw [(ih b1).1 h1]

theorem hexDecodeString_case (s : String) (b : Digest) :
    hexDecodeString s.toUpper = .ok b ↔ hexDecodeString s.toLower = .ok b := by
  simp only [hexDecodeString, String.toUpper, String.toLower, String.map_eq, String.toList]
  exact hexDecode_map_congr Char.toUpper Char.toLower fromHexChar_toUpper_toLower s.data b

theorem parseListFile_ofLines (listFilePath : String) (lines : List String) :
    parseListFile listFilePath (Source.ofLines lines) = scanLoop lines [] := by
  simp only [parseListFile, Source.ofLines]
  cases scanLoop lines [] <;> rfl

theorem scanLoop_append (pre rest : List String) (result ds : List Digest)
    (hpre : scanLoop pre result = .ok ds) :
    scanLoop (pre ++ rest) result = scanLoop rest ds := by
  induction pre generalizing result with
  | nil =>
    simp only [scanLoop, Except.ok.injEq] at hpre
    subst hpre
    rfl
  | cons str pre ih =>
    simp only [List.cons_append, scanLoop] at hpre ⊢
    cases hdec : hexDecodeString str with
    | error err =>
      rw [hdec] at hpre
      cases hpre
    | ok b =>
      rw [hdec] at hpre
      dsimp only at hpre ⊢
      by_cases hcond : result.length ≠ 0 ∧ b.length ≠ (result.headD []).length
      · rw [if_pos hcond] at hpre
        cases hpre
      · rw [if_neg hcond] at hpre ⊢
        exact ih (result ++ [b]) hpre

theorem scanLoop_error_split (lines : List String) (result : List Digest) (e : ParseError)
    (h : scanLoop lines result = .error e) :
    ∃ pre l post ds, lines = pre ++ l :: post ∧ scanLoop pre result = .ok ds
      ∧ ((∃ cause, hexDecodeString l = .error cause ∧ e = .unableToUnHex l cause)
        ∨ (∃ b, hexDecodeString l = .ok b ∧ ds.length ≠ 0
            ∧ b.length ≠ (ds.headD []).length
            ∧ e = .inconsistentLength (ds.headD []) b (ds.headD []).length b.length)) := by
  induction lines generalizing result with
  | nil => cases h
  | cons str rest ih =>
    simp only [scanLoop] at h
    cases hdec : hexDecodeString str with
    | error err =>
      rw [hdec] at h
      exact ⟨[], str, rest, result, rfl, rfl,
        Or.inl ⟨err, hdec, (Except.error.inj h).symm⟩⟩
    | ok b =>
      rw [hdec] at h
      dsimp only at h
      by_cases hcond : result.length ≠ 0 ∧ b.length ≠ (result.headD []).length
      · rw [if_pos hcond] at h
        exact ⟨[], str, rest, result, rfl, rfl,
          Or.inr ⟨b, hdec, hcond.1, hcond.2, (Except.error.inj h).symm⟩⟩
      · rw [if_neg hcond] at h
        obtain ⟨pre, l, post, ds, hsplit, hpre, hcase⟩ := ih (result ++ [b]) h
        refine ⟨str :: pre, l, post, ds, by rw [hsplit]; rfl, ?_, hcase⟩
        simp only [scanLoop, hdec, if_neg hcond]
        exact hpre

theorem scanLoop_offending (l : String) (post : List String) (ds : List Digest)
    (e : ParseError)
    (hcase : (∃ cause, hexDecodeString l = .error cause ∧ e = .unableToUnHex l cause)
      ∨ (∃ b, hexDecodeString l = .ok b ∧ ds.length ≠ 0
          ∧ b.length ≠ (ds.headD []).length
          ∧ e = .inconsistentLength (ds.headD []) b (ds.headD []).length b.length)) :
    scanLoop (l :: post) ds = .error e := by
  rcases hcase with ⟨cause, hdec, rfl⟩ | ⟨b, hdec, h1, h2, rfl⟩
  · simp only [scanLoop, hdec]
  · simp only [scanLoop, hdec]
    rw [if_pos ⟨h1, h2⟩]

/-! ## Lemmas on the program -/

theorem hashAlgoFromDigestSize_eq_some (sha1Sum sha256Sum : List Nat → List Nat) (d : Int)
    (h : Hasher) :
    hashAlgoFromDigestSize sha1Sum sha256Sum d = some h ↔
      (d = 20 ∧ h = sha1New sha1Sum) ∨ (d = 32 ∧ h = sha256New sha256Sum) := by
  unfold hashAlgoFromDigestSize sha1Size sha256Size
  by_cases h20 : d = 20
  · subst h20
    simp [eq_comm]
  · by_cases h32 : d = 32
    · subst h32
      simp [eq_comm]
    · simp [h20, h32]

theorem replay_ok_of_pos (hasher : Hasher) (locality : Nat) (contribs : List Digest) (n : Nat)
    (hsize : hasher.size = (n : Int)) (hn : 1 ≤ n) :
    ∃ r, replay hasher locality contribs = .ok r := by
  obtain ⟨m, rfl⟩ : ∃ m, n = m + 1 := ⟨n - 1, by omega⟩
  exact ⟨_, replay_of_size hasher locality contribs m hsize⟩

theorem main_ok_iff (sha1Sum sha256Sum : List Nat → List Nat) (fs : String → Source)
    (localityFlag : Nat) (listFilePath : String) (out : RunOutput) :
    main sha1Sum sha256Sum fs localityFlag [listFilePath] = .ok out ↔
      ∃ first rest hashAlgo r,
        parseListFile listFilePath (fs listFilePath) = .ok (first :: rest)
        ∧ hashAlgoFromDigestSize sha1Sum sha256Sum (first.length : Int) = some hashAlgo
        ∧ replay hashAlgo (localityFlag % 256) (first :: rest) = .ok r
        ∧ out = { resultDigest := r.digest,
                  stdout := r.stdout ++ ["result digest is: " ++ upperHex r.digest] } := by
  constructor
  · intro h
    simp only [main] at h
    cases hparse : parseListFile listFilePath (fs listFilePath) with
    | error e =>
      rw [hparse] at h
      simp at h
    | ok ds =>
      rw [hparse] at h
      cases ds with
      | nil => simp at h
      | cons first rest =>
        dsimp only at h
        cases halgo : hashAlgoFromDigestSize sha1Sum sha256Sum (first.length : Int) with
        | none =>
          rw [halgo] at h
          simp at h
        | some hashAlgo =>
          rw [halgo] at h
          dsimp only at h
          cases hrep : replay hashAlgo (localityFlag % 256) (first :: rest) with
          | error p =>
            rw [hrep] at h
            simp at h
          | ok r =>
            rw [hrep] at h
            dsimp only at h
            exact ⟨first, rest, hashAlgo, r, rfl, halgo, hrep, (Except.ok.inj h).symm⟩
  · rintro ⟨first, rest, hashAlgo, r, hp, ha, hr, rfl⟩
    simp only [main, hp, ha, hr]

/-! ## Theorems on the claims -/

/-- C1: on a hasher in its initial state with hash function `H` and output size
`n ≥ 1`, for every locality, `replay` returns the left fold of the extend step
`v ↦ H (v || c)` over the contributions, started from `n - 1` zero bytes and the
byte 3; for one contribution that is `H (v0 || c)`, for three it is
`H (H (H (v0 || c1) || c2) || c3)`. -/
theorem replay_eq_extendChain (hasher : Hasher) (n : Nat) (locality : Nat)
    (hsize : hasher.size = (n : Int)) (hn : 1 ≤ n) (hfresh : hasher.pending = []) :
    (∀ contribs : List Digest, ∃ r, replay hasher locality contribs = .ok r
        ∧ r.digest = extendChain hasher.sum (initialAccumulator n) contribs)
    ∧ (∀ c : Digest, ∃ r, replay hasher locality [c] = .ok r
        ∧ r.digest = hasher.sum ((List.replicate (n - 1) 0 ++ [3]) ++ c))
    ∧ (∀ c1 c2 c3 : Digest, ∃ r, replay hasher locality [c1, c2, c3] = .ok r
        ∧ r.digest = hasher.sum (hasher.sum (hasher.sum
            ((List.replicate (n - 1) 0 ++ [3]) ++ c1) ++ c2) ++ c3)) := by
  obtain ⟨m, rfl⟩ : ∃ m, n = m + 1 := ⟨n - 1, by omega⟩
  have key : ∀ contribs : List Digest, ∃ r, replay hasher locality contribs = .ok r
      ∧ r.digest = extendChain hasher.sum (initialAccumulator (m + 1)) contribs := by
    intro contribs
    refine ⟨_, replay_of_size hasher locality contribs m hsize, ?_⟩
    exact (foldl_extend_fresh contribs
      { hasher := hasher, v := initialAccumulator (m + 1), stdout := [] } hfresh).1
  refine ⟨key, fun c => ?_, fun c1 c2 c3 => ?_⟩
  · obtain ⟨r, hr, hd⟩ := key [c]
    exact ⟨r, hr, by rw [hd]; rfl⟩
  · obtain ⟨r, hr, hd⟩ := key [c1, c2, c3]
    exact ⟨r, hr, by rw [hd]; rfl⟩

/-- C1, at an instance: a fresh hasher of size 4 and the contributions
`[1, 2]`, `[3]`. -/
theorem replay_eq_extendChain_witness :
    (toyHasher 4).size = ((4 : Nat) : Int) ∧ 1 ≤ 4 ∧ (toyHasher 4).pending = []
    ∧ ∃ r, replay (toyHasher 4) 7 [[1, 2], [3]] = .ok r
        ∧ r.digest = extendChain (toyHasher 4).sum (initialAccumulator 4) [[1, 2], [3]] :=
  ⟨rfl, by decide, rfl,
    (replay_eq_extendChain (toyHasher 4) 4 7 rfl (by decide) rfl).1 [[1, 2], [3]]⟩

/-- C2: for a hasher of output size `n ≥ 1`, in any state, and every locality,
`replay` on the empty contribution list returns the initial accumulator: exactly
`n` bytes, the first `n - 1` equal to 0 and the last equal to 3; for the 256-bit
algorithm that is 31 zero bytes followed by the byte 3. -/
theorem replay_nil (hasher : Hasher) (n : Nat) (locality : Nat)
    (hsize : hasher.size = (n : Int)) (hn : 1 ≤ n) :
    (∃ r, replay hasher locality [] = .ok r
      ∧ r.digest = List.replicate (n - 1) 0 ++ [3]
      ∧ r.digest.length = n
      ∧ (∀ i, i < n - 1 → r.digest[i]? = some 0)
      ∧ r.digest[n - 1]? = some 3)
    ∧ (∀ sha256Sum : List Nat → List Nat, ∃ r, replay (sha256New sha256Sum) locality [] = .ok r
      ∧ r.digest = List.replicate 31 0 ++ [3]) := by
  obtain ⟨m, rfl⟩ : ∃ m, n = m + 1 := ⟨n - 1, by omega⟩
  refine ⟨⟨_, replay_of_size hasher locality [] m hsize, ?_, ?_, ?_, ?_⟩, fun f => ?_⟩
  · rfl
  · simp [initialAccumulator]
  · intro i hi
    simp only [List.foldl_nil, initialAccumulator, Nat.add_sub_cancel] at hi ⊢
    rw [List.getElem?_append_left (by simpa using hi)]
    simp [List.getElem?_replicate, hi]
  · simp only [List.foldl_nil, initialAccumulator, Nat.add_sub_cancel]
    rw [List.getElem?_append_right (by simp)]
    simp
  · exact ⟨_, replay_of_size (sha256New f) locality [] 31 rfl, rfl⟩

/-- C2, at an instance: a hasher of size 4 holding pending bytes. -/
theorem replay_nil_witness :
    ∃ r, replay { toyHasher 4 with pending := [9] } 0 [] = .ok r
      ∧ r.digest = [0, 0, 0, 3] :=
  let ⟨r, hr, hd, _⟩ := (replay_nil { toyHasher 4 with pending := [9] } 4 0 rfl (by decide)).1
  ⟨r, hr, hd⟩

/-- C3: with the default locality 0 and no contribution, `replay` on the SHA-1
sized hasher returns 19 zero bytes followed by the byte 3: the last byte of the
accumulator is the constant 3 and not the locality, and the digest is not all
zero.  End to end, with `-locality 0` and one line of 20 zero bytes, the result
is the hash of that accumulator and not of the all-zero one. -/
theorem replay_locality_zero_not_all_zero :
    (∃ r, replay (sha1New (toySum 20)) 0 [] = .ok r
      ∧ r.digest = List.replicate 19 0 ++ [3]
      ∧ r.digest.getLast? = some 3
      ∧ r.digest ≠ List.replicate 20 0)
    ∧ (∃ out, main (toySum 20) (toySum 32)
          (fun _ => Source.ofLines ["0000000000000000000000000000000000000000"]) 0 ["list"]
          = .ok out
      ∧ out.resultDigest
          = toySum 20 ((List.replicate 19 0 ++ [3]) ++ List.replicate 20 0)
      ∧ out.resultDigest ≠ toySum 20 (List.replicate 20 0 ++ List.replicate 20 0)) :=
  ⟨⟨_, rfl, rfl, rfl, by decide⟩, ⟨_, rfl, rfl, by decide⟩⟩

/-- C4: the locality argument does not influence `replay`: for every hasher,
every contribution list and every two localities the two calls give the same
outcome, hence the same digest, the same audit lines and the same hasher
afterwards; and the whole run is the same for any two values of `-locality`. -/
theorem replay_locality_irrelevant (hasher : Hasher) (l1 l2 : Nat) (contribs : List Digest) :
    replay hasher l1 contribs = replay hasher l2 contribs
    ∧ (∀ (sha1Sum sha256Sum : List Nat → List Nat) (fs : String → Source) (args : List String),
        main sha1Sum sha256Sum fs l1 args = main sha1Sum sha256Sum fs l2 args) :=
  ⟨rfl, fun _ _ _ _ => rfl⟩

/-- C5: `hashAlgoFromDigestSize` returns the SHA-1 hasher for 20, the SHA-256
hasher for 32 and no hasher for every other integer, so a hasher is returned
iff the length is 20 or 32; when the first parsed digest has another length,
`main` ends in `errorExit` with the description naming that length. -/
theorem hashAlgoFromDigestSize_spec (sha1Sum sha256Sum : List Nat → List Nat) :
    hashAlgoFromDigestSize sha1Sum sha256Sum 20 = some (sha1New sha1Sum)
    ∧ hashAlgoFromDigestSize sha1Sum sha256Sum 32 = some (sha256New sha256Sum)
    ∧ (∀ d : Int, d ≠ 20 → d ≠ 32 → hashAlgoFromDigestSize sha1Sum sha256Sum d = none)
    ∧ (∀ d : Int, (hashAlgoFromDigestSize sha1Sum sha256Sum d).isSome ↔ d = 20 ∨ d = 32)
    ∧ (∀ (fs : String → Source) (localityFlag : Nat) (listFilePath : String)
        (first : Digest) (rest : List Digest),
        parseListFile listFilePath (fs listFilePath) = .ok (first :: rest) →
        (first.length : Int) ≠ 20 → (first.length : Int) ≠ 32 →
        main sha1Sum sha256Sum fs localityFlag [listFilePath]
          = .error (.errorExit (unexpectedDigestLength (first.length : Int)))) := by
  have hnone : ∀ d : Int, d ≠ 20 → d ≠ 32 →
      hashAlgoFromDigestSize sha1Sum sha256Sum d = none := by
    intro d h20 h32
    simp [hashAlgoFromDigestSize, sha1Size, sha256Size, h20, h32]
  refine ⟨rfl, rfl, hnone, fun d => ?_, ?_⟩
  · by_cases h20 : d = 20
    · subst h20
      simp [hashAlgoFromDigestSize, sha1Size]
    · by_cases h32 : d = 32
      · subst h32
        simp [hashAlgoFromDigestSize, sha1Size, sha256Size]
      · simp [hnone d h20 h32, h20, h32]
  · intro fs localityFlag listFilePath first rest hparse h20 h32
    simp only [main, hparse, hnone _ h20 h32]

/-- C5, at instances: the lengths 0 and -1 select no hasher, and a file whose
only line is `aB` ends with the description naming the length 1. -/
theorem hashAlgoFromDigestSize_spec_witness :
    hashAlgoFromDigestSize (toySum 20) (toySum 32) 0 = none
    ∧ hashAlgoFromDigestSize (toySum 20) (toySum 32) (-1) = none
    ∧ main (toySum 20) (toySum 32) (fun _ => Source.ofLines ["aB"]) 0 ["list"]
        = .error (.errorExit
            "unexpected digest length 1 (does not match neither SHA1 nor SHA256)") :=
  ⟨(hashAlgoFromDigestSize_spec (toySum 20) (toySum 32)).2.2.1 0 (by decide) (by decide),
   (hashAlgoFromDigestSize_spec (toySum 20) (toySum 32)).2.2.1 (-1) (by decide) (by decide),
   (hashAlgoFromDigestSize_spec (toySum 20) (toySum 32)).2.2.2.2
      (fun _ => Source.ofLines ["aB"]) 0 "list" [171] [] (by decide) (by decide) (by decide)⟩

/-- C6: whenever `parseListFile` succeeds, every digest of the returned list has
the byte length of the first digest of the list; a source with a line of 20
bytes and a line of 32 bytes makes `parseListFile` fail. -/
theorem parseListFile_sameLength (listFilePath : String) (src : Source) :
    (∀ ds, parseListFile listFilePath src = .ok ds →
      ∀ d ∈ ds, d.length = (ds.headD []).length)
    ∧ ((∃ l ∈ src.lines, ∃ b, hexDecodeString l = .ok b ∧ b.length = 20) →
       (∃ l ∈ src.lines, ∃ b, hexDecodeString l = .ok b ∧ b.length = 32) →
       ∃ e, parseListFile listFilePath src = .error e) := by
  refine ⟨fun ds hok => ((parseListFile_ok_iff listFilePath src ds).1 hok).2.2.2, ?_⟩
  rintro ⟨l1, hl1, b1, hb1, hlen1⟩ ⟨l2, hl2, b2, hb2, hlen2⟩
  rw [except_error_iff_not_ok]
  rintro ⟨ds, hok⟩
  obtain ⟨_, _, hall, hsame⟩ := (parseListFile_ok_iff listFilePath src ds).1 hok
  obtain ⟨d1, hd1, hr1⟩ := forall₂_mem_left hall hl1
  obtain ⟨d2, hd2, hr2⟩ := forall₂_mem_left hall hl2
  have e1 : d1 = b1 := decodesTo_unique hr1 hb1
  have e2 : d2 = b2 := decodesTo_unique hr2 hb2
  have h1 := hsame d1 hd1
  have h2 := hsame d2 hd2
  rw [e1, hlen1] at h1
  rw [e2, hlen2] at h2
  omega

/-- C6, at instances: two lines of one byte parse to digests of one length, and
a line of 20 bytes followed by a line of 32 bytes is refused. -/
theorem parseListFile_sameLength_witness :
    (∀ d ∈ ([[171], [205]] : List Digest), d.length = 1)
    ∧ ∃ e, parseListFile "list" (Source.ofLines
        ["0000000000000000000000000000000000000000",
         "0000000000000000000000000000000000000000000000000000000000000000"]) = .error e :=
  ⟨(parseListFile_sameLength "list" (Source.ofLines ["ab", "CD"])).1 [[171], [205]]
      (by decide),
   (parseListFile_sameLength "list" (Source.ofLines
        ["0000000000000000000000000000000000000000",
         "0000000000000000000000000000000000000000000000000000000000000000"])).2
      ⟨"0000000000000000000000000000000000000000", by decide, List.replicate 20 0,
        by decide, by decide⟩
      ⟨"0000000000000000000000000000000000000000000000000000000000000000", by decide,
        List.replicate 32 0, by decide, by decide⟩⟩

/-- C7: on a readable source given by its lines, `parseListFile` fails iff some
line is not valid hexadecimal or some line decodes to a byte length different
from that of the first line; in every other case it succeeds, so no malformed
line is passed over. -/
theorem parseListFile_fails_iff (listFilePath : String) (lines : List String) :
    ((∃ e, parseListFile listFilePath (Source.ofLines lines) = .error e) ↔
      HasInvalidLine lines ∨ HasLengthMismatch lines)
    ∧ ((∃ ds, parseListFile listFilePath (Source.ofLines lines) = .ok ds) ↔
      ¬ (HasInvalidLine lines ∨ HasLengthMismatch lines)) := by
  have hok := parse_ok_iff_no_offence listFilePath lines
  refine ⟨?_, ?_⟩
  · rw [except_error_iff_not_ok, hok]
    tauto
  · rw [hok]
    tauto

/-- C8: whenever `parseListFile` succeeds on a source with lines `l1 … lm`, the
returned list has exactly `m` digests and its `i`-th digest is the hexadecimal
decoding of the `i`-th line, for every `i`. -/
theorem parseListFile_preserves_lines (listFilePath : String) (src : Source)
    (ds : List Digest) (hok : parseListFile listFilePath src = .ok ds) :
    ds.length = src.lines.length
    ∧ (∀ (i : Nat) (l : String), src.lines[i]? = some l →
        ∃ d, ds[i]? = some d ∧ hexDecodeString l = .ok d)
    ∧ src.lines.map hexDecodeString = ds.map Except.ok := by
  obtain ⟨_, _, hall, _⟩ := (parseListFile_ok_iff listFilePath src ds).1 hok
  exact ⟨hall.length_eq.symm, fun i l hl => forall₂_getElem? hall i l hl,
    map_hexDecodeString_of_forall₂ hall⟩

/-- C8, at an instance: the lines `01`, `ff`, `0A` give the digests `[1]`,
`[255]`, `[10]` in that order. -/
theorem parseListFile_preserves_lines_witness :
    parseListFile "list" (Source.ofLines ["01", "ff", "0A"]) = .ok [[1], [255], [10]]
    ∧ ([[1], [255], [10]] : List Digest).length = 3
    ∧ ["01", "ff", "0A"].map hexDecodeString = [[1], [255], [10]].map Except.ok :=
  ⟨by decide,
   (parseListFile_preserves_lines "list" (Source.ofLines ["01", "ff", "0A"])
      [[1], [255], [10]] (by decide)).1,
   (parseListFile_preserves_lines "list" (Source.ofLines ["01", "ff", "0A"])
      [[1], [255], [10]] (by decide)).2.2⟩

/-- C9, as stated, fails: two empty lines parse to two empty digests although
the source has no non-empty line, and an empty line between two lines of 20
bytes makes `parseListFile` fail with the length error. -/
theorem parseListFile_empty_lines_counterexample :
    parseListFile "list" (Source.ofLines ["", ""]) = .ok [[], []]
    ∧ ([[], []] : List Digest).length ≠ (["", ""].filter fun l => l != "").length
    ∧ parseListFile "list" (Source.ofLines
        ["0000000000000000000000000000000000000000", "",
         "0000000000000000000000000000000000000000"])
      = .error (.inconsistentLength (List.replicate 20 0) [] 20 0) := by
  decide

/-- C9, amended: `parseListFile` decodes every line, the empty ones too: on
success the returned list has one digest per line and an empty line gives the
digest of length zero; a source of `m` empty lines yields `m` empty digests,
and a source with an empty line and a line that decodes to at least one byte is
refused. -/
theorem parseListFile_decodes_empty_lines (listFilePath : String) (src : Source) :
    (∀ ds, parseListFile listFilePath src = .ok ds →
      ds.length = src.lines.length
      ∧ ∀ i : Nat, src.lines[i]? = some "" → ds[i]? = some [])
    ∧ (∀ m : Nat, parseListFile listFilePath (Source.ofLines (List.replicate m ""))
        = .ok (List.replicate m []))
    ∧ ("" ∈ src.lines →
        (∃ l ∈ src.lines, ∃ b, hexDecodeString l = .ok b ∧ b ≠ []) →
        ∃ e, parseListFile listFilePath src = .error e) := by
  refine ⟨fun ds hok => ?_, fun m => ?_, ?_⟩
  · obtain ⟨_, _, hall, _⟩ := (parseListFile_ok_iff listFilePath src ds).1 hok
    refine ⟨hall.length_eq.symm, fun i hi => ?_⟩
    obtain ⟨d, hd, hdec⟩ := forall₂_getElem? hall i "" hi
    have hnil : DecodesTo "" [] := rfl
    rw [hd, decodesTo_unique hdec hnil]
  · exact (parseListFile_ok_iff listFilePath (Source.ofLines (List.replicate m "")) _).2
      ⟨rfl, rfl, forall₂_replicate_empty m, sameLength_replicate_empty m⟩
  · rintro hempty ⟨l, hl, b, hb, hne⟩
    rw [except_error_iff_not_ok]
    rintro ⟨ds, hok⟩
    obtain ⟨_, _, hall, hsame⟩ := (parseListFile_ok_iff listFilePath src ds).1 hok
    obtain ⟨d0, hd0, hr0⟩ := forall₂_mem_left hall hempty
    obtain ⟨d1, hd1, hr1⟩ := forall₂_mem_left hall hl
    have hnil : DecodesTo "" [] := rfl
    have e0 : d0 = [] := decodesTo_unique hr0 hnil
    have e1 : d1 = b := decodesTo_unique hr1 hb
    have h0 := hsame d0 hd0
    have h1 := hsame d1 hd1
    rw [e0] at h0
    rw [e1, ← h0] at h1
    exact hne (List.length_eq_zero.1 h1)

/-- C9 amended, at instances: the source of two empty lines gives two empty
digests, and the line `ab` followed by an empty line is refused. -/
theorem parseListFile_decodes_empty_lines_witness :
    parseListFile "list" (Source.ofLines ["", ""]) = .ok [[], []]
    ∧ ([[], []] : List Digest).length = 2
    ∧ ∃ e, parseListFile "list" (Source.ofLines ["ab", ""]) = .error e :=
  ⟨(parseListFile_decodes_empty_lines "list" (Source.ofLines [])).2.1 2,
   ((parseListFile_decodes_empty_lines "list" (Source.ofLines ["", ""])).1 [[], []]
      (by decide)).1,
   (parseListFile_decodes_empty_lines "list" (Source.ofLines ["ab", ""])).2.2
      (by decide) ⟨"ab", by decide, [171], by decide, by decide⟩⟩

/-- C10: on a readable source the run ends with the description
`the provided file was empty` iff the source has no line, and on a source with
no line it produces no result digest. -/
theorem main_emptyInput_iff (sha1Sum sha256Sum : List Nat → List Nat) (fs : String → Source)
    (localityFlag : Nat) (listFilePath : String) (lines : List String)
    (hfs : fs listFilePath = Source.ofLines lines) :
    (main sha1Sum sha256Sum fs localityFlag [listFilePath]
        = .error (.errorExit "the provided file was empty") ↔ lines = [])
    ∧ (lines = [] →
        ∀ out, main sha1Sum sha256Sum fs localityFlag [listFilePath] ≠ .ok out) := by
  have hnil : lines = [] → main sha1Sum sha256Sum fs localityFlag [listFilePath]
      = .error (.errorExit "the provided file was empty") := by
    rintro rfl
    simp only [main, hfs]
    rfl
  refine ⟨⟨fun h => ?_, hnil⟩, fun h out hout => ?_⟩
  · simp only [main, hfs] at h
    cases hparse : parseListFile listFilePath (Source.ofLines lines) with
    | error e =>
      rw [hparse] at h
      simp at h
    | ok ds =>
      obtain ⟨_, _, hall, _⟩ :=
        (parseListFile_ok_iff listFilePath (Source.ofLines lines) ds).1 hparse
      cases ds with
      | nil => exact List.forall₂_nil_right_iff.1 hall
      | cons first rest =>
        rw [hparse] at h
        dsimp only at h
        cases halgo : hashAlgoFromDigestSize sha1Sum sha256Sum (first.length : Int) with
        | none =>
          rw [halgo] at h
          dsimp only at h
          exact absurd (RunError.errorExit.inj (Except.error.inj h))
            (unexpectedDigestLength_ne _)
        | some hashAlgo =>
          rw [halgo] at h
          dsimp only at h
          cases hrep : replay hashAlgo (localityFlag % 256) (first :: rest) with
          | error p =>
            rw [hrep] at h
            simp at h
          | ok r =>
            rw [hrep] at h
            simp at h
  · rw [hnil h] at hout
    cases hout

/-- C10, at instances: a source without lines ends with the description of the
empty file. -/
theorem main_emptyInput_iff_witness :
    main (toySum 20) (toySum 32) (fun _ => Source.ofLines []) 0 ["list"]
        = .error (.errorExit "the provided file was empty")
    ∧ ∀ out, main (toySum 20) (toySum 32) (fun _ => Source.ofLines []) 0 ["list"] ≠ .ok out :=
  ⟨(main_emptyInput_iff (toySum 20) (toySum 32) (fun _ => Source.ofLines []) 0 "list" []
      rfl).1.2 rfl,
   (main_emptyInput_iff (toySum 20) (toySum 32) (fun _ => Source.ofLines []) 0 "list" []
      rfl).2 rfl⟩

/-- C11: on a readable source the run produces a result digest iff the source
has at least one line, every line is valid hexadecimal and all lines decode to
one byte length that is 20 or 32; the digest is then the one `replay` returns
on the hasher selected for that length (SHA-1 for 20, SHA-256 for 32) and the
decoded lines in order; in every other case the run ends in an error. -/
theorem main_result_iff (sha1Sum sha256Sum : List Nat → List Nat) (fs : String → Source)
    (localityFlag : Nat) (listFilePath : String) (lines : List String)
    (hfs : fs listFilePath = Source.ofLines lines) :
    ((∃ out, main sha1Sum sha256Sum fs localityFlag [listFilePath] = .ok out) ↔
      lines ≠ [] ∧ ∃ n : Nat, (n = 20 ∨ n = 32) ∧
        ∀ l ∈ lines, validHex l = true ∧ ∃ b, hexDecodeString l = .ok b ∧ b.length = n)
    ∧ (∀ out, main sha1Sum sha256Sum fs localityFlag [listFilePath] = .ok out →
        ∃ (ds : List Digest) (n : Nat) (r : ReplayResult),
          lines.map hexDecodeString = ds.map Except.ok
          ∧ (∀ d ∈ ds, d.length = n)
          ∧ ((n = 20 ∧ replay (sha1New sha1Sum) (localityFlag % 256) ds = .ok r)
            ∨ (n = 32 ∧ replay (sha256New sha256Sum) (localityFlag % 256) ds = .ok r))
          ∧ out.resultDigest = r.digest)
    ∧ ((¬ ∃ out, main sha1Sum sha256Sum fs localityFlag [listFilePath] = .ok out) →
        ∃ e, main sha1Sum sha256Sum fs localityFlag [listFilePath] = .error e) := by
  have hfwd : ∀ out, main sha1Sum sha256Sum fs localityFlag [listFilePath] = .ok out →
      ∃ (ds : List Digest) (n : Nat) (r : ReplayResult),
        List.Forall₂ DecodesTo lines ds ∧ ds ≠ [] ∧ (n = 20 ∨ n = 32)
        ∧ (∀ d ∈ ds, d.length = n)
        ∧ ((n = 20 ∧ replay (sha1New sha1Sum) (localityFlag % 256) ds = .ok r)
          ∨ (n = 32 ∧ replay (sha256New sha256Sum) (localityFlag % 256) ds = .ok r))
        ∧ out.resultDigest = r.digest := by
    intro out hout
    obtain ⟨first, rest, hashAlgo, r, hp, ha, hr, rfl⟩ :=
      (main_ok_iff sha1Sum sha256Sum fs localityFlag listFilePath out).1 hout
    rw [hfs] at hp
    obtain ⟨_, _, hall, hsame⟩ :=
      (parseListFile_ok_iff listFilePath (Source.ofLines lines) _).1 hp
    have hlen : ∀ d ∈ first :: rest, d.length = first.length := fun d hd => hsame d hd
    rcases (hashAlgoFromDigestSize_eq_some sha1Sum sha256Sum _ hashAlgo).1 ha with
      ⟨h20, rfl⟩ | ⟨h32, rfl⟩
    · have h20n : first.length = 20 := by exact_mod_cast h20
      exact ⟨first :: rest, 20, r, hall, by simp, Or.inl rfl,
        fun d hd => (hlen d hd).trans h20n, Or.inl ⟨rfl, hr⟩, rfl⟩
    · have h32n : first.length = 32 := by exact_mod_cast h32
      exact ⟨first :: rest, 32, r, hall, by simp, Or.inr rfl,
        fun d hd => (hlen d hd).trans h32n, Or.inr ⟨rfl, hr⟩, rfl⟩
  refine ⟨⟨?_, ?_⟩, ?_, ?_⟩
  · rintro ⟨out, hout⟩
    obtain ⟨ds, n, r, hall, hne, hn, hlen, _, _⟩ := hfwd out hout
    refine ⟨?_, n, hn, fun l hl => ?_⟩
    · rintro rfl
      exact hne (List.forall₂_nil_left_iff.1 hall)
    · obtain ⟨d, hd, hdec⟩ := forall₂_mem_left hall hl
      exact ⟨(hexDecodeString_ok_iff l).1 ⟨d, hdec⟩, d, hdec, hlen d hd⟩
  · rintro ⟨hne, n, hn, hlines⟩
    obtain ⟨ds, hall⟩ := forall₂_of_forall_exists (R := DecodesTo) lines
      fun l hl => let ⟨_, b, hb, _⟩ := hlines l hl; ⟨b, hb⟩
    have hlen : ∀ d ∈ ds, d.length = n := by
      intro d hd
      obtain ⟨l, hl, hdec⟩ := forall₂_mem_right hall hd
      obtain ⟨_, b, hb, hbn⟩ := hlines l hl
      rw [decodesTo_unique hdec hb, hbn]
    cases ds with
    | nil => exact absurd (List.forall₂_nil_right_iff.1 hall) hne
    | cons first rest =>
      have hfirst : first.length = n := hlen first (List.mem_cons_self _ _)
      have hsame : SameLength (first :: rest) := by
        intro d hd
        rw [List.headD_cons, hlen d hd, hfirst]
      have hp : parseListFile listFilePath (fs listFilePath) = .ok (first :: rest) := by
        rw [hfs]
        exact (parseListFile_ok_iff listFilePath (Source.ofLines lines) _).2
          ⟨rfl, rfl, hall, hsame⟩
      rcases hn with h20 | h32
      · obtain ⟨r, hr⟩ := replay_ok_of_pos (sha1New sha1Sum) (localityFlag % 256)
          (first :: rest) 20 rfl (by decide)
        exact ⟨_, (main_ok_iff sha1Sum sha256Sum fs localityFlag listFilePath _).2
          ⟨first, rest, sha1New sha1Sum, r, hp,
            (hashAlgoFromDigestSize_eq_some sha1Sum sha256Sum _ _).2
              (Or.inl ⟨by rw [hfirst, h20]; rfl, rfl⟩), hr, rfl⟩⟩
      · obtain ⟨r, hr⟩ := replay_ok_of_pos (sha256New sha256Sum) (localityFlag % 256)
          (first :: rest) 32 rfl (by decide)
        exact ⟨_, (main_ok_iff sha1Sum sha256Sum fs localityFlag listFilePath _).2
          ⟨first, rest, sha256New sha256Sum, r, hp,
            (hashAlgoFromDigestSize_eq_some sha1Sum sha256Sum _ _).2
              (Or.inr ⟨by rw [hfirst, h32]; rfl, rfl⟩), hr, rfl⟩⟩
  · intro out hout
    obtain ⟨ds, n, r, hall, _, _, hlen, hrep, hdig⟩ := hfwd out hout
    exact ⟨ds, n, r, map_hexDecodeString_of_forall₂ hall, hlen, hrep, hdig⟩
  · intro hno
    rw [except_error_iff_not_ok]
    exact hno

/-- C11, at instances: one line of 20 zero bytes gives a result, the digest of
`replay` on the SHA-1 sized hasher; the single line `aB`, of one byte, gives
none. -/
theorem main_result_iff_witness :
    (∃ out, main (toySum 20) (toySum 32)
        (fun _ => Source.ofLines ["0000000000000000000000000000000000000000"]) 0 ["list"]
        = .ok out)
    ∧ (∃ e, main (toySum 20) (toySum 32) (fun _ => Source.ofLines ["aB"]) 0 ["list"]
        = .error e) :=
  ⟨(main_result_iff (toySum 20) (toySum 32)
      (fun _ => Source.ofLines ["0000000000000000000000000000000000000000"]) 0 "list"
      ["0000000000000000000000000000000000000000"] rfl).1.2
      ⟨by decide, 20, Or.inl rfl, fun l hl => by
        rw [List.mem_singleton.1 hl]
        exact ⟨by decide, List.replicate 20 0, by decide, by decide⟩⟩,
   (main_result_iff (toySum 20) (toySum 32) (fun _ => Source.ofLines ["aB"]) 0 "list"
      ["aB"] rfl).2.2 (by
        rw [(main_result_iff (toySum 20) (toySum 32) (fun _ => Source.ofLines ["aB"]) 0
          "list" ["aB"] rfl).1]
        rintro ⟨_, n, hn, hl⟩
        obtain ⟨_, b, hb, hbn⟩ := hl "aB" (by decide)
        have hb1 : b = [171] := Except.ok.inj (hb.symm.trans (by decide))
        subst hb1
        rcases hn with rfl | rfl <;> cases hbn)⟩

/-- C12: for a hasher of size `n ≥ 1` whose hash function gives `n` bytes, every
accumulator value is the hash of the input `extend` hands to the hasher, and two
contribution lists with the same number of entries and equal `replay` results
are equal or exhibit a collision between an input hashed in the one run and a
different input hashed in the other.  So when the hash function has no
collision between the inputs of the two runs, as is the case for a hash
function without any collision, equal results force equal lists, and
exchanging two distinct digests at two positions changes the result. -/
theorem replay_order_sensitive (hasher : Hasher) (n : Nat) (locality : Nat)
    (hsize : hasher.size = (n : Int)) (hn : 1 ≤ n)
    (hout : ∀ x, (hasher.sum x).length = n) :
    (∀ (st : ReplayState) (e : List Nat), (extend st e).v = st.hasher.sum (sumInput st e))
    ∧ (∀ cs cs' : List Digest, cs.length = cs'.length →
      ∃ r r', replay hasher locality cs = .ok r ∧ replay hasher locality cs' = .ok r'
        ∧ (r.digest = r'.digest →
            cs = cs'
            ∨ ∃ x ∈ sumInputs { hasher := hasher, v := initialAccumulator n, stdout := [] } cs,
              ∃ y ∈ sumInputs { hasher := hasher, v := initialAccumulator n, stdout := [] } cs',
                x ≠ y ∧ hasher.sum x = hasher.sum y))
    ∧ (∀ cs cs' : List Digest, cs.length = cs'.length →
      NoCollisionBetween hasher.sum
        (sumInputs { hasher := hasher, v := initialAccumulator n, stdout := [] } cs)
        (sumInputs { hasher := hasher, v := initialAccumulator n, stdout := [] } cs') →
      ∃ r r', replay hasher locality cs = .ok r ∧ replay hasher locality cs' = .ok r'
        ∧ (r.digest = r'.digest → cs = cs'))
    ∧ (∀ (cs : List Digest) (i j : Nat),
      i < cs.length → j < cs.length → cs.getD i [] ≠ cs.getD j [] →
      NoCollisionBetween hasher.sum
        (sumInputs { hasher := hasher, v := initialAccumulator n, stdout := [] } cs)
        (sumInputs { hasher := hasher, v := initialAccumulator n, stdout := [] }
          (swapAt cs i j)) →
      ∃ r r', replay hasher locality cs = .ok r
        ∧ replay hasher locality (swapAt cs i j) = .ok r'
        ∧ r.digest ≠ r'.digest) := by
  obtain ⟨m, rfl⟩ : ∃ m, n = m + 1 := ⟨n - 1, by omega⟩
  have key : ∀ cs cs' : List Digest, cs.length = cs'.length →
      ∃ r r', replay hasher locality cs = .ok r ∧ replay hasher locality cs' = .ok r'
        ∧ (r.digest = r'.digest →
            cs = cs'
            ∨ ∃ x ∈ sumInputs
                  { hasher := hasher, v := initialAccumulator (m + 1), stdout := [] } cs,
              ∃ y ∈ sumInputs
                  { hasher := hasher, v := initialAccumulator (m + 1), stdout := [] } cs',
                x ≠ y ∧ hasher.sum x = hasher.sum y) := by
    intro cs cs' hlen
    refine ⟨_, _, replay_of_size hasher locality cs m hsize,
      replay_of_size hasher locality cs' m hsize, fun heq => ?_⟩
    rcases foldl_extend_inj (m + 1) cs cs' _ _ rfl rfl hout hlen heq with ⟨_, h⟩ | h
    · exact Or.inl h
    · exact Or.inr h
  have keyFree : ∀ cs cs' : List Digest, cs.length = cs'.length →
      NoCollisionBetween hasher.sum
        (sumInputs { hasher := hasher, v := initialAccumulator (m + 1), stdout := [] } cs)
        (sumInputs { hasher := hasher, v := initialAccumulator (m + 1), stdout := [] } cs') →
      ∃ r r', replay hasher locality cs = .ok r ∧ replay hasher locality cs' = .ok r'
        ∧ (r.digest = r'.digest → cs = cs') := by
    intro cs cs' hlen hfree
    obtain ⟨r, r', hr, hr', h⟩ := key cs cs' hlen
    refine ⟨r, r', hr, hr', fun heq => ?_⟩
    rcases h heq with h | ⟨x, hx, y, hy, hxy, hcol⟩
    · exact h
    · exact absurd (hfree x hx y hy hcol) hxy
  refine ⟨extend_v_sumInput, key, keyFree, fun cs i j hi hj hne hfree => ?_⟩
  obtain ⟨r, r', hr, hr', h⟩ :=
    keyFree cs (swapAt cs i j) (swapAt_length cs i j).symm hfree
  exact ⟨r, r', hr, hr', fun heq => swapAt_ne cs i j hi hj hne (h heq)⟩

/-- C12, at instances over the byte-valued `toySum` of output size 4: the lists
`[1], [2, 0]` and `[2, 0], [1]` hash four inputs without a collision between
the runs and give different results; the lists `[1], [2]` and `[2], [1]` give
the same result, and the inputs `[4, 5, 0, 0, 2]` and `[5, 5, 0, 0, 1]` of the
two runs collide. -/
theorem replay_order_sensitive_witness :
    (toyHasher 4).size = ((4 : Nat) : Int) ∧ 1 ≤ 4
    ∧ (∀ x, ((toyHasher 4).sum x).length = 4)
    ∧ NoCollisionBetween (toyHasher 4).sum
        (sumInputs { hasher := toyHasher 4, v := initialAccumulator 4, stdout := [] }
          [[1], [2, 0]])
        (sumInputs { hasher := toyHasher 4, v := initialAccumulator 4, stdout := [] }
          [[2, 0], [1]])
    ∧ (∃ r r', replay (toyHasher 4) 0 [[1], [2, 0]] = .ok r
        ∧ replay (toyHasher 4) 0 [[2, 0], [1]] = .ok r'
        ∧ r.digest ≠ r'.digest)
    ∧ (∃ r r', replay (toyHasher 4) 0 [[1], [2]] = .ok r
        ∧ replay (toyHasher 4) 0 [[2], [1]] = .ok r'
        ∧ r.digest = r'.digest
        ∧ [4, 5, 0, 0, 2] ∈ sumInputs
            { hasher := toyHasher 4, v := initialAccumulator 4, stdout := [] } [[1], [2]]
        ∧ [5, 5, 0, 0, 1] ∈ sumInputs
            { hasher := toyHasher 4, v := initialAccumulator 4, stdout := [] } [[2], [1]]
        ∧ (toyHasher 4).sum [4, 5, 0, 0, 2] = (toyHasher 4).sum [5, 5, 0, 0, 1]) :=
  have hlen : ∀ x : List Nat, ((toyHasher 4).sum x).length = 4 := fun x => by
    simp only [toyHasher, toySum, List.length_take, List.length_cons, List.length_replicate]
    omega
  have hfree : NoCollisionBetween (toyHasher 4).sum
      (sumInputs { hasher := toyHasher 4, v := initialAccumulator 4, stdout := [] }
        [[1], [2, 0]])
      (sumInputs { hasher := toyHasher 4, v := initialAccumulator 4, stdout := [] }
        [[2, 0], [1]]) := by
    unfold NoCollisionBetween
    decide
  ⟨rfl, by decide, hlen, hfree,
    (replay_order_sensitive (toyHasher 4) 4 0 rfl (by decide) hlen).2.2.2
      [[1], [2, 0]] 0 1 (by decide) (by decide) (by decide) hfree,
    ⟨_, _, rfl, rfl, by decide, by decide, by decide, by decide⟩⟩

/-- C13: on a hasher in its initial state, of size `n ≥ 1`, `replay` prints one
audit line per contribution, in list order; the `i`-th line is `<- `, the
upper-case hexadecimal of the contribution `c_i`, `: `, and the upper-case
hexadecimal of `v_i = H (v_(i-1) || c_i)`, the accumulator after the first `i`
contributions; the value on the last line is the digest returned.  The
hexadecimal form has two digits of `0-9A-F` per byte and decodes back to the
bytes. -/
theorem replay_audit_lines (hasher : Hasher) (n : Nat) (locality : Nat)
    (hsize : hasher.size = (n : Int)) (hn : 1 ≤ n) (hfresh : hasher.pending = [])
    (contribs : List Digest) :
    (∃ r, replay hasher locality contribs = .ok r
      ∧ r.stdout.length = contribs.length
      ∧ r.stdout = auditTrail hasher.sum (initialAccumulator n) contribs
      ∧ (∀ (i : Nat) (c : Digest), contribs[i]? = some c →
          r.stdout[i]? = some ("<- " ++ upperHex c ++ ": "
            ++ upperHex (extendChain hasher.sum (initialAccumulator n) (contribs.take (i + 1))))
          ∧ extendChain hasher.sum (initialAccumulator n) (contribs.take (i + 1))
            = hasher.sum
                (extendChain hasher.sum (initialAccumulator n) (contribs.take i) ++ c))
      ∧ (∀ c : Digest, contribs.getLast? = some c →
          r.stdout.getLast? = some ("<- " ++ upperHex c ++ ": " ++ upperHex r.digest)))
    ∧ (∀ bs : List Nat, (upperHex bs).length = 2 * bs.length
        ∧ (∀ ch ∈ (upperHex bs).toList, ch ∈ upperHexDigits)
        ∧ ((∀ b ∈ bs, b < 256) → hexDecodeString (upperHex bs) = .ok bs)) := by
  obtain ⟨m, rfl⟩ : ∃ m, n = m + 1 := ⟨n - 1, by omega⟩
  refine ⟨⟨_, replay_of_size hasher locality contribs m hsize, ?_, ?_, ?_, ?_⟩,
    fun bs => ⟨upperHex_length bs, upperHex_digits bs, hexDecodeString_upperHex bs⟩⟩
  · simp only []
    rw [foldl_extend_stdout contribs _ hfresh]
    simp [auditTrail_length]
  · simp only []
    rw [foldl_extend_stdout contribs _ hfresh]
    rfl
  · intro i c hc
    simp only []
    rw [foldl_extend_stdout contribs _ hfresh]
    exact ⟨by
      simp only [List.nil_append]
      exact auditTrail_getElem? hasher.sum _ contribs i c hc,
      extendChain_take_succ hasher.sum _ contribs i c hc⟩
  · intro c hc
    simp only []
    rw [foldl_extend_stdout contribs _ hfresh,
      (foldl_extend_fresh contribs _ hfresh).1]
    simp only [List.nil_append]
    rw [List.getLast?_eq_getElem?] at hc ⊢
    rw [auditTrail_length]
    have hpos : 0 < contribs.length := by
      by_contra h0
      have : contribs = [] := by
        cases contribs with
        | nil => rfl
        | cons a as => simp at h0
      subst this
      simp at hc
    have htake : contribs.take (contribs.length - 1 + 1) = contribs := by
      rw [Nat.sub_add_cancel hpos, List.take_length]
    rw [auditTrail_getElem? hasher.sum _ contribs _ c hc, htake]
    rfl

/-- C13, at an instance: a fresh hasher of size 4 and the contributions
`[1, 2]`, `[3]`. -/
theorem replay_audit_lines_witness :
    ∃ r, replay (toyHasher 4) 0 [[1, 2], [3]] = .ok r
      ∧ r.stdout = ["<- 0102: 06060000", "<- 03: 0F050000"] :=
  let ⟨r, hr, _, hout, _⟩ :=
    (replay_audit_lines (toyHasher 4) 4 0 rfl (by decide) rfl [[1, 2], [3]]).1
  ⟨r, hr, hout.trans (by decide)⟩

/-- C14: on a hasher in its initial state, of size `n ≥ 1`, `replay` returns
with the hasher in its initial state again, reset and without pending bytes, so
a second call on that hasher with the same locality and list returns the same
digest, indeed the same outcome. -/
theorem replay_deterministic (hasher : Hasher) (n : Nat) (locality : Nat)
    (hsize : hasher.size = (n : Int)) (hn : 1 ≤ n) (hfresh : hasher.pending = [])
    (contribs : List Digest) :
    ∃ r, replay hasher locality contribs = .ok r
      ∧ r.hasher = hasher
      ∧ r.hasher.pending = []
      ∧ replay r.hasher locality contribs = .ok r
      ∧ ∃ r2, replay r.hasher locality contribs = .ok r2 ∧ r2.digest = r.digest := by
  obtain ⟨m, rfl⟩ : ∃ m, n = m + 1 := ⟨n - 1, by omega⟩
  have hok := replay_of_size hasher locality contribs m hsize
  have hh := (foldl_extend_fresh contribs
    { hasher := hasher, v := initialAccumulator (m + 1), stdout := [] } hfresh).2
  obtain ⟨r, hr, hrh⟩ : ∃ r, replay hasher locality contribs = .ok r ∧ r.hasher = hasher :=
    ⟨_, hok, hh⟩
  have hsecond : replay r.hasher locality contribs = .ok r := by
    rw [hrh]
    exact hr
  exact ⟨r, hr, hrh, by rw [hrh, hfresh], hsecond, r, hsecond, rfl⟩

/-- C14, at an instance: a fresh hasher of size 4 is fresh again after
`replay`, and the second call gives the outcome of the first. -/
theorem replay_deterministic_witness :
    ∃ r, replay (toyHasher 4) 0 [[1, 2], [3]] = .ok r
      ∧ r.hasher.pending = []
      ∧ replay r.hasher 0 [[1, 2], [3]] = .ok r :=
  let ⟨r, hr, _, hp, h2, _⟩ :=
    replay_deterministic (toyHasher 4) 4 0 rfl (by decide) rfl [[1, 2], [3]]
  ⟨r, hr, hp, h2⟩

/-- C15: hexadecimal decoding does not depend on the case of the digits:
`parseListFile` on the lines in upper case and on the lines in lower case
succeed with the same list of digests or fail both; `AB`, `ab` and `aB` all
decode to the byte `0xAB`. -/
theorem parseListFile_case_insensitive (listFilePath : String) (lines : List String) :
    (∀ ds, parseListFile listFilePath (Source.ofLines (lines.map String.toUpper)) = .ok ds ↔
      parseListFile listFilePath (Source.ofLines (lines.map String.toLower)) = .ok ds)
    ∧ ((∃ e, parseListFile listFilePath (Source.ofLines (lines.map String.toUpper)) = .error e) ↔
      ∃ e, parseListFile listFilePath (Source.ofLines (lines.map String.toLower)) = .error e)
    ∧ hexDecodeString "AB" = .ok [0xAB]
    ∧ hexDecodeString "ab" = .ok [0xAB]
    ∧ hexDecodeString "aB" = .ok [0xAB] := by
  have key : ∀ ds,
      parseListFile listFilePath (Source.ofLines (lines.map String.toUpper)) = .ok ds ↔
      parseListFile listFilePath (Source.ofLines (lines.map String.toLower)) = .ok ds := by
    intro ds
    rw [parseListFile_ok_iff, parseListFile_ok_iff]
    simp only [Source.ofLines, true_and, List.forall₂_map_left_iff]
    have hrel : ∀ l d, DecodesTo (String.toUpper l) d ↔ DecodesTo (String.toLower l) d :=
      fun l d => hexDecodeString_case l d
    constructor
    · rintro ⟨h1, h2⟩
      exact ⟨h1.imp fun l d h => (hrel l d).1 h, h2⟩
    · rintro ⟨h1, h2⟩
      exact ⟨h1.imp fun l d h => (hrel l d).2 h, h2⟩
  refine ⟨key, ?_, by decide, by decide, by decide⟩
  rw [except_error_iff_not_ok, except_error_iff_not_ok]
  exact not_congr (exists_congr key)

/-- C16: `replay` returns a digest on every hasher `hashAlgoFromDigestSize`
gives, and on every hasher of size `n ≥ 1`, where the write at index `n - 1` is
in bounds; the index is out of bounds exactly for a hasher of size 0. -/
theorem replay_cannot_fail (hasher : Hasher) (locality : Nat) (contribs : List Digest) :
    (∀ (sha1Sum sha256Sum : List Nat → List Nat) (d : Int) (h : Hasher),
      hashAlgoFromDigestSize sha1Sum sha256Sum d = some h →
      ∃ r, replay h locality contribs = .ok r)
    ∧ (∀ n : Nat, hasher.size = (n : Int) → 1 ≤ n →
      (∃ v, setIndex (List.replicate n 0) ((n : Int) - 1) 3 = .ok v)
      ∧ ∃ r, replay hasher locality contribs = .ok r)
    ∧ ((∃ i len, replay hasher locality contribs = .error (.indexOutOfRange i len)) ↔
      hasher.size = 0) := by
  refine ⟨?_, ?_, ?_, ?_⟩
  · intro sha1Sum sha256Sum d h hsel
    rcases (hashAlgoFromDigestSize_eq_some sha1Sum sha256Sum d h).1 hsel with
      ⟨_, rfl⟩ | ⟨_, rfl⟩
    · exact replay_ok_of_pos _ locality contribs 20 rfl (by decide)
    · exact replay_ok_of_pos _ locality contribs 32 rfl (by decide)
  · intro n hsize hn
    refine ⟨?_, replay_ok_of_pos hasher locality contribs n hsize hn⟩
    obtain ⟨m, rfl⟩ : ∃ m, n = m + 1 := ⟨n - 1, by omega⟩
    exact ⟨_, setIndex_last m 3⟩
  · rintro ⟨i, len, herr⟩
    rcases lt_trichotomy hasher.size 0 with hneg | hzero | hpos
    · rw [replay_size_neg hasher locality contribs hneg] at herr
      cases herr
    · exact hzero
    · obtain ⟨n, hn⟩ := Int.eq_ofNat_of_zero_le (le_of_lt hpos)
      obtain ⟨r, hr⟩ := replay_ok_of_pos hasher locality contribs n hn (by omega)
      rw [hr] at herr
      cases herr
  · intro hzero
    exact ⟨-1, 0, replay_size_zero hasher locality contribs hzero⟩

/-- C16, at instances: the hasher selected for 20 bytes and a hasher of size 4
return a digest; a hasher of size 0 ends in the index panic. -/
theorem replay_cannot_fail_witness :
    (∃ r, replay (sha1New (toySum 20)) 0 [[1], [2]] = .ok r)
    ∧ (∃ r, replay (toyHasher 4) 0 [[1], [2]] = .ok r)
    ∧ ∃ i len, replay (toyHasher 0) 0 [[1], [2]] = .error (.indexOutOfRange i len) :=
  ⟨(replay_cannot_fail (toyHasher 4) 0 [[1], [2]]).1 (toySum 20) (toySum 32) 20 _ rfl,
   ((replay_cannot_fail (toyHasher 4) 0 [[1], [2]]).2.1 4 rfl (by decide)).2,
   (replay_cannot_fail (toyHasher 0) 0 [[1], [2]]).2.2.2 rfl⟩

/-- C17: when `parseListFile` fails on a readable source, the lines split into
the lines before the first offending line, which parse on their own, that
line, and the lines after it.  If the line is not valid hexadecimal the error
carries exactly its text; otherwise the line decodes to a length other than
that of the first digest, and the error carries the first digest, the
offending digest and their two lengths in that order.  The lines after the
offending line do not change the error. -/
theorem parseListFile_first_offence (listFilePath : String) (lines : List String)
    (e : ParseError) (h : parseListFile listFilePath (Source.ofLines lines) = .error e) :
    ∃ pre l post ds, lines = pre ++ l :: post
      ∧ parseListFile listFilePath (Source.ofLines pre) = .ok ds
      ∧ ((validHex l = false ∧ ∃ cause, e = .unableToUnHex l cause)
        ∨ (validHex l = true ∧ ∃ first rest b, ds = first :: rest
            ∧ hexDecodeString l = .ok b ∧ b.length ≠ first.length
            ∧ e = .inconsistentLength first b first.length b.length))
      ∧ ∀ post', parseListFile listFilePath (Source.ofLines (pre ++ l :: post')) = .error e := by
  rw [parseListFile_ofLines] at h
  obtain ⟨pre, l, post, ds, hsplit, hpre, hcase⟩ := scanLoop_error_split lines [] e h
  refine ⟨pre, l, post, ds, hsplit, by rw [parseListFile_ofLines]; exact hpre, ?_, ?_⟩
  · rcases hcase with ⟨cause, hdec, he⟩ | ⟨b, hdec, h1, h2, he⟩
    · left
      refine ⟨?_, cause, he⟩
      by_contra hv
      obtain ⟨b, hb⟩ := (hexDecodeString_ok_iff l).2 (by simpa using hv)
      rw [hdec] at hb
      cases hb
    · right
      refine ⟨(hexDecodeString_ok_iff l).1 ⟨b, hdec⟩, ?_⟩
      cases ds with
      | nil => exact absurd rfl h1
      | cons first rest => exact ⟨first, rest, b, rfl, hdec, h2, he⟩
  · intro post'
    rw [parseListFile_ofLines, scanLoop_append pre (l :: post') [] ds hpre]
    exact scanLoop_offending l post' ds e hcase

/-- C17, at an instance: in `ab`, `zz`, `0102` the first offending line is `zz`
and the error carries its text, whatever follows. -/
theorem parseListFile_first_offence_witness :
    parseListFile "list" (Source.ofLines ["ab", "zz", "0102"])
      = .error (.unableToUnHex "zz" (.invalidByte 'z'))
    ∧ parseListFile "list" (Source.ofLines ["ab", "0102", "zz"])
      = .error (.inconsistentLength [171] [1, 2] 1 2)
    ∧ ∃ pre l post ds, ["ab", "zz", "0102"] = pre ++ l :: post
      ∧ parseListFile "list" (Source.ofLines pre) = .ok ds
      ∧ ∀ post', parseListFile "list" (Source.ofLines (pre ++ l :: post'))
          = .error (.unableToUnHex "zz" (.invalidByte 'z')) :=
  ⟨by decide, by decide,
   let ⟨pre, l, post, ds, h1, h2, _, h4⟩ :=
     parseListFile_first_offence "list" ["ab", "zz", "0102"]
       (.unableToUnHex "zz" (.invalidByte 'z')) (by decide)
   ⟨pre, l, post, ds, h1, h2, h4⟩⟩

/-- C18: for a hasher of size `n ≥ 1` whose hash function gives `n` bytes, the
accumulator has `n` bytes at the start and after every extend step, so the
digest `replay` returns has `n` bytes.  In a run that produces a result, with
SHA-1 giving 20 bytes and SHA-256 giving 32, the size of the selected hasher is
the byte length of the first contribution, and the result digest has the byte
length of every contribution, 20 or 32. -/
theorem accumulator_length_fixed (hasher : Hasher) (n : Nat) (locality : Nat)
    (hsize : hasher.size = (n : Int)) (hn : 1 ≤ n)
    (hout : ∀ x, (hasher.sum x).length = n) (contribs : List Digest) :
    (initialAccumulator n).length = n
    ∧ (∀ i : Nat, ((contribs.take i).foldl extend
          { hasher := hasher, v := initialAccumulator n, stdout := [] }).v.length = n)
    ∧ (∃ r, replay hasher locality contribs = .ok r ∧ r.digest.length = n)
    ∧ (∀ (sha1Sum sha256Sum : List Nat → List Nat) (fs : String → Source)
        (localityFlag : Nat) (listFilePath : String) (out : RunOutput),
        (∀ x, (sha1Sum x).length = 20) → (∀ x, (sha256Sum x).length = 32) →
        main sha1Sum sha256Sum fs localityFlag [listFilePath] = .ok out →
        ∃ first rest hashAlgo,
          parseListFile listFilePath (fs listFilePath) = .ok (first :: rest)
          ∧ hashAlgoFromDigestSize sha1Sum sha256Sum (first.length : Int) = some hashAlgo
          ∧ hashAlgo.Size = (first.length : Int)
          ∧ (∀ d ∈ first :: rest, out.resultDigest.length = d.length)
          ∧ (out.resultDigest.length = 20 ∨ out.resultDigest.length = 32)) := by
  have hinit := initialAccumulator_length n hn
  have hstep : ∀ cs : List Digest, (cs.foldl extend
      { hasher := hasher, v := initialAccumulator n, stdout := [] }).v.length = n :=
    fun cs => foldl_extend_v_length n cs _ hinit hout
  refine ⟨hinit, fun i => hstep _, ?_, ?_⟩
  · obtain ⟨m, rfl⟩ : ∃ m, n = m + 1 := ⟨n - 1, by omega⟩
    exact ⟨_, replay_of_size hasher locality contribs m hsize, hstep contribs⟩
  · intro sha1Sum sha256Sum fs localityFlag listFilePath out h1 h256 hmain
    obtain ⟨first, rest, hashAlgo, r, hp, ha, hr, rfl⟩ :=
      (main_ok_iff sha1Sum sha256Sum fs localityFlag listFilePath out).1 hmain
    obtain ⟨_, _, _, hsame⟩ := (parseListFile_ok_iff listFilePath _ _).1 hp
    have hlenAll : ∀ d ∈ first :: rest, d.length = first.length := fun d hd => hsame d hd
    have hdig : ∀ (k : Nat) (h : Hasher), h.size = ((k + 1 : Nat) : Int) →
        (∀ x, (h.sum x).length = k + 1) →
        replay h (localityFlag % 256) (first :: rest) = .ok r → r.digest.length = k + 1 := by
      intro k h hs ho hrep
      rw [replay_of_size h _ _ k hs] at hrep
      rw [← Except.ok.inj hrep]
      exact foldl_extend_v_length (k + 1) _ _ (initialAccumulator_length _ (by omega)) ho
    rcases (hashAlgoFromDigestSize_eq_some sha1Sum sha256Sum _ hashAlgo).1 ha with
      ⟨h20, rfl⟩ | ⟨h32, rfl⟩
    · have hfirst : first.length = 20 := by exact_mod_cast h20
      have hd : r.digest.length = 20 := hdig 19 _ rfl h1 hr
      exact ⟨first, rest, _, hp, ha, h20.symm, fun d hd2 => by
        rw [hlenAll d hd2, hfirst]
        exact hd, Or.inl hd⟩
    · have hfirst : first.length = 32 := by exact_mod_cast h32
      have hd : r.digest.length = 32 := hdig 31 _ rfl h256 hr
      exact ⟨first, rest, _, hp, ha, h32.symm, fun d hd2 => by
        rw [hlenAll d hd2, hfirst]
        exact hd, Or.inr hd⟩

/-- C18, at instances: over `toySum`, a hasher of size 4 returns 4 bytes, and a
run on one line of 20 zero bytes returns 20 bytes. -/
theorem accumulator_length_fixed_witness :
    (∃ r, replay (toyHasher 4) 0 [[1, 2], [3]] = .ok r ∧ r.digest.length = 4)
    ∧ ∃ out, main (toySum 20) (toySum 32)
        (fun _ => Source.ofLines ["0000000000000000000000000000000000000000"]) 0 ["list"]
        = .ok out
      ∧ (out.resultDigest.length = 20 ∨ out.resultDigest.length = 32) :=
  have hlen : ∀ (n : Nat) (x : List Nat), (toySum n x).length = n := fun n x => by
    simp only [toySum, List.length_take, List.length_cons, List.length_replicate]
    omega
  ⟨(accumulator_length_fixed (toyHasher 4) 4 0 rfl (by decide) (hlen 4) [[1, 2], [3]]).2.2.1,
   ⟨_, rfl,
    let ⟨_, _, _, _, _, _, _, h⟩ :=
      (accumulator_length_fixed (toyHasher 4) 4 0 rfl (by decide) (hlen 4) []).2.2.2
        (toySum 20) (toySum 32)
        (fun _ => Source.ofLines ["0000000000000000000000000000000000000000"]) 0 "list" _
        (hlen 20) (hlen 32) rfl
    h⟩⟩

end ReplayPCR0
